import Mathlib

/-! qtractorTempoAdjustForm: tempo and beat length arithmetic, tap tempo, beat detection.

A shallow embedding of the numeric parts of `src/qtractorTempoAdjustForm.cpp`.

* Machine integers are naturals / integers with explicit wrap-around
  (`unsigned short` 16 bit, `unsigned int` 32 bit, `unsigned long` 64 bit, `int` 32 bit).
* `float` is IEEE-754 binary32 with round-to-nearest, ties-to-even: a value is a rational
  (every binary32 number is one), an infinity or NaN, and every operation rounds its exact
  result with `rnd`.  The sign of zero is not tracked.
* Undefined behaviour (integer division by zero, signed overflow, a float to integer
  conversion out of range) is the result `none`.
* Widgets, the time scale and the aubio tracker are collaborators outside this file: a slot is
  modelled by the form members it updates together with the arguments of the widget calls it
  makes.
-/

namespace Qtractor

/-! ## Machine integers -/

/-- Conversion to `unsigned short`. -/
def u16 (n : Nat) : Nat := n % 2 ^ 16

/-- Conversion to `unsigned int`. -/
def u32 (n : Nat) : Nat := n % 2 ^ 32

/-- Conversion to `unsigned long` (LP64). -/
def u64 (n : Nat) : Nat := n % 2 ^ 64

/-! ## Single precision floating point -/

/-- A binary32 value: a finite number, a signed infinity, or NaN. -/
inductive F32 where
  | fin (q : ℚ)
  | inf (neg : Bool)
  | nan
  deriving DecidableEq

/-- Round a rational to the nearest integer, ties to the even one. -/
def rne (y : ℚ) : ℤ :=
  let f := ⌊y⌋
  let r := y - f
  if r < 1 / 2 then f
  else if 1 / 2 < r then f + 1
  else if f % 2 = 0 then f else f + 1

/-- Exponent of the unit in the last place of the binary32 numbers around `x`:
24 significant bits, smallest normal exponent -126 (below it the spacing is 2^-149). -/
def ulpExp (x : ℚ) : ℤ := max (Int.log 2 |x|) (-126) - 23

/-- Round an exact result to binary32 (round to nearest, ties to even, overflow to infinity). -/
def rnd (x : ℚ) : F32 :=
  let e := ulpExp x
  let v : ℚ := (rne (x / 2 ^ e) : ℚ) * 2 ^ e
  if (2 : ℚ) ^ 128 ≤ |v| then F32.inf (decide (x < 0)) else F32.fin v

namespace F32

/-- Single precision addition. -/
def add : F32 → F32 → F32
  | fin a, fin b => rnd (a + b)
  | fin _, inf s => inf s
  | inf s, fin _ => inf s
  | inf s, inf t => if s = t then inf s else nan
  | _, _ => nan

/-- Single precision multiplication. -/
def mul : F32 → F32 → F32
  | fin a, fin b => rnd (a * b)
  | fin a, inf s => if a = 0 then nan else inf (xor s (decide (a < 0)))
  | inf s, fin b => if b = 0 then nan else inf (xor s (decide (b < 0)))
  | inf s, inf t => inf (xor s t)
  | _, _ => nan

/-- Single precision division; a finite non-zero value divided by zero is an infinity,
zero by zero is NaN. -/
def div : F32 → F32 → F32
  | fin a, fin b =>
    if b = 0 then (if a = 0 then nan else inf (decide (a < 0))) else rnd (a / b)
  | fin _, inf _ => fin 0
  | inf s, fin b => inf (xor s (decide (b < 0)))
  | _, _ => nan

/-- Conversion of an unsigned integer to `float`. -/
def ofNat (n : Nat) : F32 := rnd (n : ℚ)

/-- Conversion of a signed integer to `float`. -/
def ofInt (z : Int) : F32 := rnd (z : ℚ)

/-- Truncation of a rational toward zero. -/
def truncQ (q : ℚ) : ℤ := if 0 ≤ q then ⌊q⌋ else ⌈q⌉

/-- Conversion `int(x)`: truncation toward zero, undefined outside the range of `int`. -/
def toInt32 : F32 → Option Int
  | fin q => if -(2 : ℤ) ^ 31 ≤ truncQ q ∧ truncQ q < 2 ^ 31 then some (truncQ q) else none
  | _ => none

/-- Conversion to `unsigned long`: truncation toward zero, undefined outside its range. -/
def toU64 : F32 → Option Nat
  | fin q => if 0 ≤ truncQ q ∧ truncQ q < 2 ^ 64 then some (truncQ q).toNat else none
  | _ => none

/-- The comparison `x > 0.0f`. -/
def isPos : F32 → Bool
  | fin q => decide (0 < q)
  | inf s => !s
  | nan => false

end F32

/-! ## The form: tempo, beat length and tap tempo -/

/-- The time scale as the form reads it (`m_pTimeScale`): sample rate, beats per bar and the
frame to beat mapping, which lives outside this file. -/
structure TimeScale where
  sampleRate : Nat
  beatsPerBar : Nat
  beatFromFrame : Nat → Nat

/-- Form members the slots below update: `m_iTempoTap`, `m_fTempoTap`, `m_iDirtySetup`.
The dirty counter, button states and the session selection (`changed`, `stabilizeForm`,
`updateRangeSelect`) are dialog bookkeeping and are not part of the model. -/
structure Form where
  iTempoTap : Int
  fTempoTap : F32
  iDirtySetup : Int
  deriving DecidableEq

/-- The local `iBeatLength` of `tempoChanged`:
`60.0f * float(sampleRate) / fTempo` converted to `unsigned long`. -/
def beatLengthOfTempo (sampleRate : Nat) (fTempo : F32) : Option Nat :=
  F32.toU64 (F32.div (F32.mul (F32.fin 60) (F32.ofNat sampleRate)) fTempo)

/-- Slot `tempoChanged`: `fTempo` is the tempo the spin box holds, `iRangeLength` the value of
the range length spin box.  Result: the form afterwards and the argument handed to
`setRangeBeats` when that call is made; `none` is undefined behaviour. -/
def tempoChanged (f : Form) (ts : TimeScale) (fTempo : F32) (iRangeLength : Nat) :
    Option (Form × Option Nat) :=
  if f.iDirtySetup > 0 then some (f, none)
  else
    let f1 : Form := { f with iTempoTap := 0, fTempoTap := F32.fin 0 }
    if fTempo.isPos then
      match beatLengthOfTempo ts.sampleRate fTempo with
      | none => none
      | some iBeatLength =>
        if iBeatLength > 0 then some (f1, some (u16 (u64 iRangeLength / iBeatLength)))
        else some (f1, none)
    else some (f1, none)

/-- What `tempoTap` meets in the widgets when it publishes.  The call
`m_ui.TempoSpinBox->setTempo(bpm, true)` asks the tempo spin box to notify: when the spin box
emits `valueChanged`, the slot `tempoChanged` connected to it in the constructor runs inside
that call.  Whether it emits is the spin box's decision (`tempoNotifies`); `fTempo` is the
tempo the spin box then holds and `iRangeLength` the value of the range length spin box, both
read by `tempoChanged`. -/
structure Widgets where
  tempoNotifies : Bool
  fTempo : F32
  iRangeLength : Nat

/-- Slot `tempoTap`: `iTimeTap` is the time in milliseconds since the previous tap
(`m_pTempoTap->restart()`).  Result: the form afterwards, the integer tempo handed to
`setTempo` when a tempo is published, and the beat count handed to `setRangeBeats` when the
notification runs `tempoChanged`; `none` is undefined behaviour. -/
def tempoTap (f : Form) (ts : TimeScale) (w : Widgets) (iTimeTap : Int) :
    Option (Form × Option Int × Option Nat) :=
  if iTimeTap > 200 ∧ iTimeTap < 2000 then
    let acc := F32.add f.fTempoTap (F32.div (F32.fin 60000) (F32.ofInt iTimeTap))
    if f.iTempoTap + 1 < 2 ^ 31 then
      let n := f.iTempoTap + 1
      if n > 2 then
        let avg := F32.div acc (F32.ofInt n)
        match F32.toInt32 avg with
        | none => none
        | some bpm =>
          let f1 : Form := { f with iTempoTap := 1, fTempoTap := avg }
          if w.tempoNotifies then
            match tempoChanged f1 ts w.fTempo w.iRangeLength with
            | none => none
            | some r => some (r.1, some bpm, r.2)
          else some (f1, some bpm, none)
      else some ({ f with iTempoTap := n, fTempoTap := acc }, none, none)
    else none
  else some ({ f with iTempoTap := 0, fTempoTap := F32.fin 0 }, none, none)

/-- The local `fTempo` of `adjust`: `60.0f * float(sampleRate) / float(iBeatLength)`. -/
def tempoOfBeatLength (sampleRate iBeatLength : Nat) : F32 :=
  F32.div (F32.mul (F32.fin 60) (F32.ofNat sampleRate)) (F32.ofNat iBeatLength)

/-- Slot `adjust`: `rangeBeatsValue` is the value of the range beats spin box, `iRangeLength`
that of the range length spin box.  Result: the tempo handed to `setTempo`, or `none` when
`adjust` returns without that call. -/
def adjust (ts : TimeScale) (rangeBeatsValue : Int) (iRangeLength : Nat) : Option F32 :=
  let iRangeBeats := u16 (rangeBeatsValue % 2 ^ 16).toNat
  if iRangeBeats < 1 then none
  else
    let iBeatLength := u64 iRangeLength / iRangeBeats
    some (tempoOfBeatLength ts.sampleRate iBeatLength)

/-- The local `iRangeBeatsMax` of `updateRangeLength`:
`int(5.0f * float(iRangeLength) / float(sampleRate))`. -/
def rangeBeatsMax (ts : TimeScale) (iRangeLength : Nat) : Option Int :=
  F32.toInt32 (F32.div (F32.mul (F32.fin 5) (F32.ofNat (u64 iRangeLength)))
    (F32.ofNat ts.sampleRate))

/-- Method `updateRangeLength`.  Result: the maximum handed to the range beats spin box and the
beat count handed to `setRangeBeats`; `none` is undefined behaviour (here: a float to `int`
conversion out of range, or the division by `q = 0`). -/
def updateRangeLength (ts : TimeScale) (iRangeLength : Nat) : Option (Int × Nat) :=
  match rangeBeatsMax ts iRangeLength with
  | none => none
  | some iRangeBeatsMax =>
    let q := u64 ts.beatsPerBar
    let iRangeBeats := u32 (ts.beatFromFrame (u64 iRangeLength))
    if q = 0 then none
    else some (iRangeBeatsMax, u16 (u64 (q * (u64 (iRangeBeats + (q >>> 1)) / q))))

/-! ## The beat-detection callback -/

/-- The operations of the aubio tempo tracker the callback uses, over tracker states `τ`:
`aubio_tempo_do` (new state and the sample it writes to `obuf[0]`) and
`aubio_tempo_get_last`. -/
structure Tracker (τ : Type) where
  tempoDo : τ → List F32 → τ × F32
  getLast : τ → Nat

/-- The members of `audioClipBeatDetectData`; `ibuf` is an `fvec_t` of `nstep` samples. -/
structure BeatDetectData (τ : Type) where
  count : Nat
  channels : Nat
  nstep : Nat
  aubio : τ
  ibuf : List F32
  obuf : F32
  beats : List Nat

/-- The downmix of input frame `i`: `fSum` accumulated over the channels in order, divided by
`float(channels)`. -/
def downmix (ppFrames : Nat → Nat → F32) (channels : Nat) (i : Nat) : F32 :=
  F32.div ((List.range channels).foldl (fun fSum n => F32.add fSum (ppFrames n i)) (F32.fin 0))
    (F32.ofNat channels)

/-- The first inner loop, `for (; j < nstep && i < iFrames; ++j, ++i)`, with `k = nstep - j`
iterations left before `j` reaches `nstep`.  Result: `j`, `i` and `ibuf` after the loop. -/
def fillHop (ppFrames : Nat → Nat → F32) (channels iFrames : Nat) :
    Nat → Nat → Nat → List F32 → Nat × Nat × List F32
  | 0, j, i, ibuf => (j, i, ibuf)
  | k + 1, j, i, ibuf =>
    if i < iFrames then
      fillHop ppFrames channels iFrames k (j + 1) (i + 1)
        (ibuf.set j (downmix ppFrames channels i))
    else (j, i, ibuf)

/-- The second inner loop, `for (; j < nstep; ++j)`, zero padding, with `k = nstep - j`. -/
def padHop : Nat → Nat → List F32 → List F32
  | 0, _, ibuf => ibuf
  | k + 1, j, ibuf => padHop k (j + 1) (ibuf.set j (F32.fin 0))

/-- One pass of the body of `while (i < iFrames)`: fill, pad, run the tracker, record a beat.
Result: the new `i` and the data. -/
def hopStep {τ : Type} (T : Tracker τ) (ppFrames : Nat → Nat → F32) (iFrames : Nat)
    (i : Nat) (d : BeatDetectData τ) : Nat × BeatDetectData τ :=
  let r := fillHop ppFrames d.channels iFrames d.nstep 0 i d.ibuf
  let ibuf := padHop (d.nstep - r.1) r.1 r.2.2
  let t := T.tempoDo d.aubio ibuf
  let is_beat := decide (t.2 ≠ F32.fin 0)
  (r.2.1, { d with aubio := t.1, ibuf := ibuf, obuf := t.2,
                   beats := if is_beat then d.beats ++ [T.getLast t.1] else d.beats })

/-- The loop `while (i < iFrames)`; `none` when the fuel runs out before the loop ends. -/
def hopLoop {τ : Type} (T : Tracker τ) (ppFrames : Nat → Nat → F32) (iFrames : Nat) :
    Nat → Nat → BeatDetectData τ → Option (BeatDetectData τ)
  | 0, _, _ => none
  | fuel + 1, i, d =>
    if i < iFrames then
      hopLoop T ppFrames iFrames fuel (hopStep T ppFrames iFrames i d).1
        (hopStep T ppFrames iFrames i d).2
    else some d

/-- Conversion of an `unsigned int` result to `int` (two's complement). -/
def wrapInt32 (z : Int) : Int := (z + 2 ^ 31) % 2 ^ 32 - 2 ^ 31

/-- The callback `audioClipBeatDetect`.  `progress` is the value of the main form's progress
bar (`none`: no main form); the bar is taken to hold the value last handed to `setValue`.
Result: the data and the progress value afterwards; `none` when the fuel runs out. -/
def audioClipBeatDetect {τ : Type} (T : Tracker τ) (fuel : Nat) (ppFrames : Nat → Nat → F32)
    (iFrames : Nat) (d : BeatDetectData τ) (progress : Option Int) :
    Option (BeatDetectData τ × Option Int) :=
  match hopLoop T ppFrames iFrames fuel 0 d with
  | none => none
  | some d1 =>
    if u32 (d1.count + 1) > 100 then
      some ({ d1 with count := 0 }, progress.map (fun v => wrapInt32 (v + iFrames)))
    else some ({ d1 with count := u32 (d1.count + 1) }, progress)

/-! ## Definitions used to state the properties -/

/-- The value `rnd` rounds to, before the overflow test. -/
def rndVal (x : ℚ) : ℚ := (rne (x / 2 ^ ulpExp x) : ℚ) * 2 ^ ulpExp x

/-- The single precision average of three tap terms, as `tempoTap` accumulates it from the
empty accumulator: `((0 + 60000/d1) + 60000/d2 + 60000/d3) / 3`. -/
def tapAverage (d1 d2 d3 : Int) : F32 :=
  F32.div
    (F32.add (F32.add (F32.add (F32.fin 0) (F32.div (F32.fin 60000) (F32.ofInt d1)))
      (F32.div (F32.fin 60000) (F32.ofInt d2))) (F32.div (F32.fin 60000) (F32.ofInt d3)))
    (F32.ofInt 3)

/-- Round half up: the nearest integer, an exact midpoint going up. -/
def roundHalfUp (x : ℚ) : ℤ := ⌊x + 1 / 2⌋

/-- The mono buffer of the hop starting at input frame `i0`: the downmix of frame `i0 + j` at
position `j` while that frame exists, zero after the end of the input. -/
def hopBuffer (ppFrames : Nat → Nat → F32) (channels nstep iFrames i0 : Nat) : List F32 :=
  (List.range nstep).map
    (fun j => if i0 + j < iFrames then downmix ppFrames channels (i0 + j) else F32.fin 0)

/-- What one hop does to the data once its mono buffer `buf` is filled: the tracker runs on
`buf` and a beat it reports is appended. -/
def feed {τ : Type} (T : Tracker τ) (d : BeatDetectData τ) (buf : List F32) :
    BeatDetectData τ :=
  { d with aubio := (T.tempoDo d.aubio buf).1, ibuf := buf, obuf := (T.tempoDo d.aubio buf).2,
           beats := if decide ((T.tempoDo d.aubio buf).2 ≠ F32.fin 0)
             then d.beats ++ [T.getLast (T.tempoDo d.aubio buf).1] else d.beats }

/-- The mono buffers of a block of `iFrames` frames, in the order they are fed: hop `k` starts
at input frame `k * nstep`, and there are `ceil(iFrames / nstep)` hops. -/
def hopBuffers (ppFrames : Nat → Nat → F32) (channels nstep iFrames : Nat) : List (List F32) :=
  (List.range ((iFrames + nstep - 1) / nstep)).map
    (fun k => hopBuffer ppFrames channels nstep iFrames (k * nstep))

/-- A rational that is a binary32 number: rounding leaves it unchanged. -/
def IsF32 (x : ℚ) : Prop := rnd x = F32.fin x

/-- The exact arithmetic mean of the first `c` values of `x`. -/
def exactMean (c : Nat) (x : Nat → ℚ) : ℚ := (∑ n in Finset.range c, x n) / c

/-- The tracker that only counts the buffers it is fed and never reports a beat. -/
def countingTracker : Tracker Nat :=
  { tempoDo := fun t _ => (t + 1, F32.fin 0), getLast := fun t => t }

/-- The two channel input whose every frame is the sample pair `(1.0, -1.0)`. -/
def pairInput : Nat → Nat → F32 := fun n _ => if n = 0 then F32.fin 1 else F32.fin (-1)

/-- The three channel input whose every frame holds the samples `1.0`, `2^-24`, `2^-24`. -/
def tripleInput : Nat → Nat → F32 :=
  fun n _ => if n = 0 then F32.fin 1 else F32.fin (1 / 16777216)

/-- Modelled from the spec: the block export primitive (`clipExport`, outside this file)
invokes the callback once per block of the range.  A run is that sequence of calls, one per
block `(ppFrames, iFrames)`, each starting from the data and progress value the previous
one left. -/
def detectRun {τ : Type} (T : Tracker τ) (fuel : Nat) :
    List ((Nat → Nat → F32) × Nat) → BeatDetectData τ → Option Int →
      Option (BeatDetectData τ × Option Int)
  | [], d, p => some (d, p)
  | b :: rest, d, p =>
    match audioClipBeatDetect T fuel b.1 b.2 d p with
    | none => none
    | some r => detectRun T fuel rest r.1 r.2

/-- A one channel input of silence. -/
def silence : Nat → Nat → F32 := fun _ _ => F32.fin 0

/-- The data a detection run starts from, for one channel and hop size 1, with the counting
tracker. -/
def monoData : BeatDetectData Nat := ⟨0, 1, 1, 0, [F32.fin 0], F32.fin 0, []⟩

/-! ## Facts about rounding -/

theorem rne_cases (y : ℚ) : rne y = ⌊y⌋ ∨ rne y = ⌊y⌋ + 1 := by
  unfold rne
  simp only
  split_ifs <;> simp

theorem rne_abs_sub_le (y : ℚ) : |(rne y : ℚ) - y| ≤ 1 / 2 := by
  have h1 := Int.floor_le y
  have h2 := Int.lt_floor_add_one y
  unfold rne
  simp only
  split_ifs with ha hb hc
  · rw [abs_le]; constructor <;> linarith
  · rw [abs_le]; push_cast; constructor <;> linarith
  · rw [abs_le]; constructor <;> linarith
  · rw [abs_le]; push_cast; constructor <;> linarith

theorem rne_intCast (n : ℤ) : rne (n : ℚ) = n := by
  unfold rne
  simp

theorem floor_le_rne (y : ℚ) : ⌊y⌋ ≤ rne y := by
  rcases rne_cases y with h | h <;> omega

theorem rne_le_ceil (y : ℚ) : rne y ≤ ⌈y⌉ := by
  by_cases hy : (⌊y⌋ : ℚ) = y
  · have : rne y = ⌊y⌋ := by
      rw [← hy, rne_intCast]
      simp
    rw [this]
    exact Int.floor_le_ceil y
  · have hlt : (⌊y⌋ : ℚ) < y := lt_of_le_of_ne (Int.floor_le y) hy
    have hc : ⌊y⌋ + 1 ≤ ⌈y⌉ := by
      have : ⌊y⌋ < ⌈y⌉ := by
        rw [Int.lt_ceil]
        exact hlt
      omega
    rcases rne_cases y with h | h <;> omega

/-- Evaluate `rne` from the floor of its argument. -/
theorem rne_of_floor (y : ℚ) (f : ℤ) (h1 : (f : ℚ) ≤ y) (h2 : y < f + 1) :
    rne y = if y - f < 1 / 2 then f else if 1 / 2 < y - f then f + 1
      else if f % 2 = 0 then f else f + 1 := by
  have hf : ⌊y⌋ = f := by
    rw [Int.floor_eq_iff]
    exact ⟨h1, h2⟩
  unfold rne
  simp only [hf]

theorem ulpExp_of_bounds (x : ℚ) (L : ℤ) (hL : -126 ≤ L) (h1 : (2 : ℚ) ^ L ≤ |x|)
    (h2 : |x| < (2 : ℚ) ^ (L + 1)) : ulpExp x = L - 23 := by
  have hpos : (0 : ℚ) < |x| := lt_of_lt_of_le (by positivity) h1
  have ha : L ≤ Int.log 2 |x| := by
    rw [← Int.zpow_le_iff_le_log (by norm_num) hpos]
    exact_mod_cast h1
  have hb : Int.log 2 |x| < L + 1 := by
    rw [← Int.lt_zpow_iff_log_lt (by norm_num) hpos]
    exact_mod_cast h2
  unfold ulpExp
  have : Int.log 2 |x| = L := by omega
  rw [this, max_eq_left hL]

theorem ulpExp_le (x : ℚ) (k : ℤ) (hk : -125 ≤ k) (hx0 : x ≠ 0) (hx : |x| < (2 : ℚ) ^ k) :
    ulpExp x ≤ k - 24 := by
  have hpos : (0 : ℚ) < |x| := abs_pos.mpr hx0
  have hb : Int.log 2 |x| < k := by
    rw [← Int.lt_zpow_iff_log_lt (by norm_num) hpos]
    exact_mod_cast hx
  unfold ulpExp
  have : max (Int.log 2 |x|) (-126) ≤ k - 1 := max_le (by omega) (by omega)
  omega

theorem ulpExp_nonpos (x : ℚ) (hx : |x| < (2 : ℚ) ^ (24 : ℤ)) : ulpExp x ≤ 0 := by
  by_cases hx0 : x = 0
  · subst hx0
    simp [ulpExp, Int.log_zero_right]
  · have := ulpExp_le x 24 (by norm_num) hx0 hx
    omega

theorem rnd_zero : rnd 0 = F32.fin 0 := by
  unfold rnd
  simp [rne]

theorem rnd_eq_of_lt (x : ℚ) (h : |rndVal x| < (2 : ℚ) ^ 128) : rnd x = F32.fin (rndVal x) := by
  have h2 : ¬ (2 : ℚ) ^ 128 ≤ |(rne (x / 2 ^ ulpExp x) : ℚ) * 2 ^ ulpExp x| := not_le.mpr h
  unfold rnd
  simp only
  rw [if_neg h2]
  rfl

theorem rndVal_abs_sub_le (x : ℚ) : |rndVal x - x| ≤ 2 ^ (ulpExp x - 1) := by
  have hp : (0 : ℚ) < 2 ^ ulpExp x := by positivity
  have h := rne_abs_sub_le (x / 2 ^ ulpExp x)
  have e1 : rndVal x - x = ((rne (x / 2 ^ ulpExp x) : ℚ) - x / 2 ^ ulpExp x) * 2 ^ ulpExp x := by
    unfold rndVal
    field_simp
  rw [e1, abs_mul, abs_of_pos hp, zpow_sub₀ (by norm_num), zpow_one]
  calc |(rne (x / 2 ^ ulpExp x) : ℚ) - x / 2 ^ ulpExp x| * 2 ^ ulpExp x
      ≤ 1 / 2 * 2 ^ ulpExp x := mul_le_mul_of_nonneg_right h hp.le
    _ = 2 ^ ulpExp x / 2 := by ring

/-- Absolute rounding error below `2^k`: half a unit in the last place. -/
theorem rnd_err (x : ℚ) (k : ℤ) (hk1 : -125 ≤ k) (hk2 : k ≤ 127) (hx : |x| < (2 : ℚ) ^ k) :
    ∃ v : ℚ, rnd x = F32.fin v ∧ |v - x| ≤ 2 ^ (k - 25) := by
  by_cases hx0 : x = 0
  · subst hx0
    exact ⟨0, rnd_zero, by simp; positivity⟩
  · have he := ulpExp_le x k hk1 hx0 hx
    have herr : |rndVal x - x| ≤ (2 : ℚ) ^ (k - 25) :=
      le_trans (rndVal_abs_sub_le x) (zpow_le_zpow_right₀ (by norm_num) (by omega))
    refine ⟨rndVal x, rnd_eq_of_lt x ?_, herr⟩
    have h1 : |rndVal x| ≤ |rndVal x - x| + |x| := by
      have := abs_add (rndVal x - x) x
      simpa using this
    have h2 : (2 : ℚ) ^ (k - 25) ≤ 2 ^ (127 : ℤ) := zpow_le_zpow_right₀ (by norm_num) (by omega)
    have h3 : (2 : ℚ) ^ k ≤ 2 ^ (127 : ℤ) := zpow_le_zpow_right₀ (by norm_num) hk2
    have h4 : (2 : ℚ) ^ (127 : ℤ) + 2 ^ (127 : ℤ) = 2 ^ 128 := by norm_num
    linarith

/-- Relative rounding error in the normal range: at most `2^-24`. -/
theorem rnd_rel (x : ℚ) (h1 : (2 : ℚ) ^ (-126 : ℤ) ≤ |x|) (h2 : |x| < (2 : ℚ) ^ (127 : ℤ)) :
    ∃ v : ℚ, rnd x = F32.fin v ∧ |v - x| ≤ |x| / 2 ^ 24 := by
  have hpos : (0 : ℚ) < |x| := lt_of_lt_of_le (by positivity) h1
  have ha : -126 ≤ Int.log 2 |x| := by
    rw [← Int.zpow_le_iff_le_log (by norm_num) hpos]
    exact_mod_cast h1
  have he : ulpExp x = Int.log 2 |x| - 23 := by
    unfold ulpExp
    rw [max_eq_left ha]
  have hlog : ((2 : ℕ) : ℚ) ^ Int.log 2 |x| ≤ |x| := Int.zpow_log_le_self (by norm_num) hpos
  have herr : |rndVal x - x| ≤ |x| / 2 ^ 24 := by
    refine le_trans (rndVal_abs_sub_le x) ?_
    rw [he, show Int.log 2 |x| - 23 - 1 = Int.log 2 |x| - 24 by ring,
      zpow_sub₀ (by norm_num)]
    have : (2 : ℚ) ^ (24 : ℤ) = 2 ^ 24 := by norm_num
    rw [this]
    apply div_le_div_of_nonneg_right _ (by positivity)
    exact_mod_cast hlog
  refine ⟨rndVal x, rnd_eq_of_lt x ?_, herr⟩
  have h3 : |rndVal x| ≤ |rndVal x - x| + |x| := by
    have := abs_add (rndVal x - x) x
    simpa using this
  have h4 : |x| / 2 ^ 24 ≤ |x| := div_le_self hpos.le (by norm_num)
  have h5 : (2 : ℚ) ^ (127 : ℤ) + 2 ^ (127 : ℤ) = 2 ^ 128 := by norm_num
  linarith

/-- Below `2^24` the binary32 grid contains the integers, so rounding never crosses one. -/
theorem rnd_sandwich (x : ℚ) (h0 : 0 ≤ x) (hx : x < (2 : ℚ) ^ (24 : ℤ)) :
    ∃ v : ℚ, rnd x = F32.fin v ∧ (⌊x⌋ : ℚ) ≤ v ∧ v ≤ (⌈x⌉ : ℚ) := by
  have he := ulpExp_nonpos x (by rwa [abs_of_nonneg h0])
  obtain ⟨n, hn⟩ : ∃ n : ℕ, ulpExp x = -(n : ℤ) := ⟨(-ulpExp x).toNat, by omega⟩
  have hp : (0 : ℚ) < 2 ^ n := by positivity
  have hv : rndVal x = (rne (x * 2 ^ n) : ℚ) / 2 ^ n := by
    unfold rndVal
    rw [hn, zpow_neg, zpow_natCast]
    field_simp
  have hlo : ⌊x⌋ * 2 ^ n ≤ rne (x * 2 ^ n) := by
    refine le_trans ?_ (floor_le_rne _)
    rw [Int.le_floor]
    push_cast
    exact mul_le_mul_of_nonneg_right (Int.floor_le x) hp.le
  have hhi : rne (x * 2 ^ n) ≤ ⌈x⌉ * 2 ^ n := by
    refine le_trans (rne_le_ceil _) ?_
    rw [Int.ceil_le]
    push_cast
    exact mul_le_mul_of_nonneg_right (Int.le_ceil x) hp.le
  have hlo2 : (⌊x⌋ : ℚ) ≤ rndVal x := by
    rw [hv, le_div_iff₀ hp]
    exact_mod_cast hlo
  have hhi2 : rndVal x ≤ (⌈x⌉ : ℚ) := by
    rw [hv, div_le_iff₀ hp]
    exact_mod_cast hhi
  refine ⟨rndVal x, rnd_eq_of_lt x ?_, hlo2, hhi2⟩
  have hf0 : (0 : ℚ) ≤ ⌊x⌋ := by exact_mod_cast Int.floor_nonneg.mpr h0
  have hc : (⌈x⌉ : ℚ) ≤ 2 ^ 24 := by
    have : ⌈x⌉ ≤ (2 : ℤ) ^ 24 := by
      rw [Int.ceil_le]
      push_cast
      have : (2 : ℚ) ^ (24 : ℤ) = 2 ^ 24 := by norm_num
      linarith
    exact_mod_cast this
  rw [abs_of_nonneg (le_trans hf0 hlo2)]
  have : (2 : ℚ) ^ 24 < 2 ^ 128 := by norm_num
  linarith

/-- Integers of magnitude below `2^24` are binary32 numbers: converting them is exact. -/
theorem rnd_intCast (z : ℤ) (hz : |z| < 2 ^ 24) : rnd (z : ℚ) = F32.fin z := by
  have hq : |(z : ℚ)| < (2 : ℚ) ^ (24 : ℤ) := by
    have : ((|z| : ℤ) : ℚ) < ((2 ^ 24 : ℤ) : ℚ) := by exact_mod_cast hz
    rw [Int.cast_abs] at this
    have h2 : (2 : ℚ) ^ (24 : ℤ) = ((2 ^ 24 : ℤ) : ℚ) := by norm_num
    rw [h2]
    exact this
  have he := ulpExp_nonpos (z : ℚ) hq
  obtain ⟨n, hn⟩ : ∃ n : ℕ, ulpExp (z : ℚ) = -(n : ℤ) := ⟨(-ulpExp (z : ℚ)).toNat, by omega⟩
  have hp : (0 : ℚ) < 2 ^ n := by positivity
  have hv : rndVal (z : ℚ) = z := by
    unfold rndVal
    rw [hn, zpow_neg, zpow_natCast]
    have : (z : ℚ) / (2 ^ n)⁻¹ = ((z * 2 ^ n : ℤ) : ℚ) := by
      push_cast
      field_simp
    rw [this, rne_intCast]
    push_cast
    field_simp
  have hlt : |rndVal (z : ℚ)| < (2 : ℚ) ^ 128 := by
    rw [hv]
    have : (2 : ℚ) ^ (24 : ℤ) < 2 ^ 128 := by norm_num
    linarith
  rw [rnd_eq_of_lt _ hlt, hv]

theorem ofNat_exact (n : ℕ) (hn : n < 2 ^ 24) : F32.ofNat n = F32.fin n := by
  have := rnd_intCast (n : ℤ) (by rw [abs_of_nonneg (by positivity)]; exact_mod_cast hn)
  unfold F32.ofNat
  exact_mod_cast this

theorem ofInt_exact (z : ℤ) (hz : |z| < 2 ^ 24) : F32.ofInt z = F32.fin z :=
  rnd_intCast z hz

/-- Evaluate `rnd` at a given rational from its binary exponent `L` and the floor `f` of its
scaled significand. -/
theorem rnd_eval (x : ℚ) (L f m : ℤ) (hL : -126 ≤ L) (h1 : (2 : ℚ) ^ L ≤ |x|)
    (h2 : |x| < (2 : ℚ) ^ (L + 1)) (hf1 : (f : ℚ) ≤ x / 2 ^ (L - 23))
    (hf2 : x / 2 ^ (L - 23) < f + 1)
    (hm : m = if x / 2 ^ (L - 23) - f < 1 / 2 then f else if 1 / 2 < x / 2 ^ (L - 23) - f
      then f + 1 else if f % 2 = 0 then f else f + 1)
    (hov : |(m : ℚ) * 2 ^ (L - 23)| < 2 ^ 128) : rnd x = F32.fin (m * 2 ^ (L - 23)) := by
  have he := ulpExp_of_bounds x L hL h1 h2
  have hv : rndVal x = m * 2 ^ (L - 23) := by
    unfold rndVal
    rw [he, rne_of_floor _ f hf1 hf2, ← hm]
  rw [rnd_eq_of_lt x (by rw [hv]; exact hov), hv]

theorem rnd_natLit (n : ℕ) (hn : n < 2 ^ 24) : rnd (n : ℚ) = F32.fin n := by
  have := rnd_intCast (n : ℤ) (by rw [abs_of_nonneg (by positivity)]; exact_mod_cast hn)
  exact_mod_cast this

/-! ## Single precision facts for the tap terms -/

/-- The term `60000.0f / float(iTimeTap)` of a tap inside the window. -/
theorem tapTerm_err (d : ℤ) (h : 200 < d ∧ d < 2000) :
    ∃ v : ℚ, F32.div (F32.fin 60000) (F32.ofInt d) = F32.fin v ∧
      |v - 60000 / (d : ℚ)| ≤ 1 / 65536 ∧ 30 < 60000 / (d : ℚ) ∧ 60000 / (d : ℚ) < 300 := by
  obtain ⟨hlo, hhi⟩ := h
  have hd1 : (200 : ℚ) < d := by exact_mod_cast hlo
  have hd2 : (d : ℚ) < 2000 := by exact_mod_cast hhi
  have hdpos : (0 : ℚ) < d := by linarith
  have hof : F32.ofInt d = F32.fin d := ofInt_exact d (by rw [abs_of_pos (by omega)]; omega)
  have hb1 : 30 < 60000 / (d : ℚ) := by rw [lt_div_iff₀ hdpos]; linarith
  have hb2 : 60000 / (d : ℚ) < 300 := by rw [div_lt_iff₀ hdpos]; linarith
  obtain ⟨v, hv, herr⟩ := rnd_err (60000 / (d : ℚ)) 9 (by norm_num) (by norm_num)
    (by rw [abs_of_pos (by linarith)]; norm_num; linarith)
  refine ⟨v, ?_, ?_, hb1, hb2⟩
  · rw [hof]
    simp only [F32.div]
    rw [if_neg hdpos.ne', hv]
  · norm_num at herr
    exact herr

/-- Error of a single precision addition whose exact sum is below `2^k`. -/
theorem add_err (a b : ℚ) (k : ℤ) (hk1 : -125 ≤ k) (hk2 : k ≤ 127) (h : |a + b| < (2 : ℚ) ^ k) :
    ∃ v : ℚ, F32.add (F32.fin a) (F32.fin b) = F32.fin v ∧ |v - (a + b)| ≤ 2 ^ (k - 25) :=
  rnd_err (a + b) k hk1 hk2 h

theorem toInt32_of_nonneg (q : ℚ) (h0 : 0 ≤ q) (h1 : q < 2 ^ 31) :
    F32.toInt32 (F32.fin q) = some ⌊q⌋ := by
  have ht : F32.truncQ q = ⌊q⌋ := by simp [F32.truncQ, h0]
  have hf0 : 0 ≤ ⌊q⌋ := Int.floor_nonneg.mpr h0
  have hf1 : ⌊q⌋ < 2 ^ 31 := by
    rw [Int.floor_lt]
    exact_mod_cast h1
  simp only [F32.toInt32, ht]
  rw [if_pos ⟨by omega, hf1⟩]

theorem tapAverage_1000 : tapAverage 1000 1000 1000 = F32.fin 60 := by
  have h1 : F32.ofInt 1000 = F32.fin 1000 := by simpa using ofInt_exact 1000 (by norm_num)
  have h3 : F32.ofInt 3 = F32.fin 3 := by simpa using ofInt_exact 3 (by norm_num)
  have r60 : rnd 60 = F32.fin 60 := by simpa using rnd_natLit 60 (by norm_num)
  have r120 : rnd 120 = F32.fin 120 := by simpa using rnd_natLit 120 (by norm_num)
  have r180 : rnd 180 = F32.fin 180 := by simpa using rnd_natLit 180 (by norm_num)
  have e1 : F32.div (F32.fin 60000) (F32.fin 1000) = F32.fin 60 := by
    simp only [F32.div]; norm_num [r60]
  have e2 : F32.add (F32.fin 0) (F32.fin 60) = F32.fin 60 := by
    simp only [F32.add]; norm_num [r60]
  have e3 : F32.add (F32.fin 60) (F32.fin 60) = F32.fin 120 := by
    simp only [F32.add]; norm_num [r120]
  have e4 : F32.add (F32.fin 120) (F32.fin 60) = F32.fin 180 := by
    simp only [F32.add]; norm_num [r180]
  have e5 : F32.div (F32.fin 180) (F32.fin 3) = F32.fin 60 := by
    simp only [F32.div]; norm_num [r60]
  simp only [tapAverage, h1, h3, e1, e2, e3, e4, e5]

theorem div_60000_1000 : F32.div (F32.fin 60000) (F32.ofInt 1000) = F32.fin 60 := by
  have h1 : F32.ofInt 1000 = F32.fin 1000 := by simpa using ofInt_exact 1000 (by norm_num)
  have r60 : rnd 60 = F32.fin 60 := by simpa using rnd_natLit 60 (by norm_num)
  rw [h1]; simp only [F32.div]; norm_num [r60]

theorem div_60000_500 : F32.div (F32.fin 60000) (F32.ofInt 500) = F32.fin 120 := by
  have h1 : F32.ofInt 500 = F32.fin 500 := by simpa using ofInt_exact 500 (by norm_num)
  have r : rnd 120 = F32.fin 120 := by simpa using rnd_natLit 120 (by norm_num)
  rw [h1]; simp only [F32.div]; norm_num [r]

/-- Exact single precision sum of two small naturals. -/
theorem add_natLit (a b : ℕ) (h : a + b < 2 ^ 24) :
    F32.add (F32.fin a) (F32.fin b) = F32.fin ((a + b : ℕ) : ℚ) := by
  simp only [F32.add]
  rw [← rnd_natLit (a + b) h]
  push_cast
  rfl

/-- Exact single precision quotient of two small naturals, one dividing the other. -/
theorem div_natLit (a b c : ℕ) (hb : b ≠ 0) (h : a = c * b) (hc : c < 2 ^ 24) :
    F32.div (F32.fin a) (F32.fin b) = F32.fin (c : ℚ) := by
  have hb2 : (b : ℚ) ≠ 0 := by exact_mod_cast hb
  simp only [F32.div]
  rw [if_neg hb2, ← rnd_natLit c hc, h]
  push_cast
  rw [mul_div_assoc, div_self hb2, mul_one]

theorem toInt32_natLit (n : ℕ) (h : n < 2 ^ 31) : F32.toInt32 (F32.fin (n : ℚ)) = some (n : ℤ) := by
  rw [toInt32_of_nonneg _ (by positivity) (by exact_mod_cast h)]
  simp

/-! ## Beat count quantization -/

/-- The quotient `(r + q / 2) / q` is `r / q` rounded half up. -/
theorem quantize_roundHalfUp (q r : ℕ) (hq : 1 ≤ q) :
    (((r + q / 2) / q : ℕ) : ℤ) = roundHalfUp ((r : ℚ) / q) := by
  have hdm := Nat.div_add_mod (r + q / 2) q
  have hm : (r + q / 2) % q < q := Nat.mod_lt _ (by omega)
  have hh1 : 2 * (q / 2) ≤ q := by omega
  have hh2 : q ≤ 2 * (q / 2) + 1 := by omega
  generalize (r + q / 2) / q = k at hdm ⊢
  generalize (r + q / 2) % q = m at hdm hm
  generalize q / 2 = h at hdm hh1 hh2
  have hqpos : (0 : ℚ) < q := by exact_mod_cast hq
  have e1 : (q : ℚ) * k + m = r + h := by exact_mod_cast hdm
  have e2 : (m : ℚ) + 1 ≤ q := by exact_mod_cast hm
  have e3 : 2 * (h : ℚ) ≤ q := by exact_mod_cast hh1
  have e4 : (q : ℚ) ≤ 2 * h + 1 := by exact_mod_cast hh2
  have e5 : (0 : ℚ) ≤ m := by positivity
  have hr : (r : ℚ) / q = k + (m - h) / q := by
    have : (r : ℚ) = q * k + (m - h) := by linarith
    rw [this]
    field_simp
    ring
  have w1 : -(1 / 2 : ℚ) ≤ (m - h) / q := by
    rw [le_div_iff₀ hqpos]
    linarith
  have w2 : ((m : ℚ) - h) / q < 1 / 2 := by
    rw [div_lt_iff₀ hqpos]
    linarith
  unfold roundHalfUp
  symm
  rw [Int.floor_eq_iff, hr]
  push_cast
  constructor <;> linarith

/-- The multiple `q * ((r + q / 2) / q)` lies within `q / 2` of `r`. -/
theorem quantize_near (q r : ℕ) (hq : 1 ≤ q) :
    2 * |((q * ((r + q / 2) / q) : ℕ) : ℤ) - r| ≤ q := by
  have hdm := Nat.div_add_mod (r + q / 2) q
  have hm : (r + q / 2) % q < q := Nat.mod_lt _ (by omega)
  generalize q * ((r + q / 2) / q) = v at hdm ⊢
  generalize (r + q / 2) % q = m at hdm hm
  rcases abs_cases ((v : ℤ) - r) with ⟨h, _⟩ | ⟨h, _⟩ <;> rw [h] <;> omega

/-- The integer arithmetic of `updateRangeLength` on values of its C types. -/
theorem quantize_machine (q r : ℕ) (hq : 1 ≤ q) (hq2 : q < 2 ^ 64) (hr : r < 2 ^ 32)
    (hfit : q * ((r + q / 2) / q) < 2 ^ 16) :
    u16 (u64 (u64 q * (u64 (u32 r + (u64 q >>> 1)) / u64 q))) = q * ((r + q / 2) / q) := by
  have e1 : u64 q = q := Nat.mod_eq_of_lt hq2
  have e2 : u32 r = r := Nat.mod_eq_of_lt hr
  have e3 : q >>> 1 = q / 2 := by simp [Nat.shiftRight_eq_div_pow]
  have e4 : u64 (r + q / 2) = r + q / 2 := Nat.mod_eq_of_lt (by omega)
  have e5 : u64 (q * ((r + q / 2) / q)) = q * ((r + q / 2) / q) :=
    Nat.mod_eq_of_lt (by omega)
  rw [e1, e2, e3, e4, e5]
  exact Nat.mod_eq_of_lt hfit

theorem updateRangeLength_eq (ts : TimeScale) (L : ℕ) (hq : u64 ts.beatsPerBar ≠ 0) :
    updateRangeLength ts L = (rangeBeatsMax ts L).map (fun mx => (mx,
      u16 (u64 (u64 ts.beatsPerBar * (u64 (u32 (ts.beatFromFrame (u64 L))
        + (u64 ts.beatsPerBar >>> 1)) / u64 ts.beatsPerBar))))) := by
  unfold updateRangeLength
  cases rangeBeatsMax ts L with
  | none => rfl
  | some mx => simp [hq]

/-- Conversion of a positive integer below `2^64` to `float`: finite, relative error `2^-24`. -/
theorem ofNat_rel (n : ℕ) (h1 : 0 < n) (h2 : n < 2 ^ 64) :
    ∃ v : ℚ, F32.ofNat n = F32.fin v ∧ |v - n| ≤ (n : ℚ) / 2 ^ 24 := by
  have hn1 : (1 : ℚ) ≤ n := by exact_mod_cast h1
  have hn2 : (n : ℚ) < 2 ^ 64 := by exact_mod_cast h2
  have habs : |(n : ℚ)| = n := abs_of_nonneg (by positivity)
  obtain ⟨v, hv, he⟩ := rnd_rel (n : ℚ)
    (by rw [habs]; refine le_trans ?_ hn1; norm_num)
    (by rw [habs]; refine lt_trans hn2 ?_; norm_num)
  rw [habs] at he
  exact ⟨v, hv, he⟩

/-- The spin box maximum of `updateRangeLength` is defined whenever `5 * L / sampleRate` stays
below `2^30`. -/
theorem rangeBeatsMax_defined (ts : TimeScale) (L : ℕ) (hs1 : 0 < ts.sampleRate)
    (hs2 : ts.sampleRate < 2 ^ 32) (hL : L < 2 ^ 64) (h : 5 * L ≤ 2 ^ 30 * ts.sampleRate) :
    ∃ mx : ℤ, rangeBeatsMax ts L = some mx := by
  have eL : u64 L = L := Nat.mod_eq_of_lt hL
  obtain ⟨s, hs, es⟩ := ofNat_rel ts.sampleRate hs1 (by omega)
  rw [abs_le] at es
  have hsr1 : (1 : ℚ) ≤ ts.sampleRate := by exact_mod_cast hs1
  have hsr2 : (ts.sampleRate : ℚ) < 2 ^ 32 := by exact_mod_cast hs2
  have hspos : 0 < s := by linarith
  unfold rangeBeatsMax
  rw [eL, hs]
  rcases Nat.eq_zero_or_pos L with h0 | hpos
  · subst h0
    have e0 : F32.ofNat 0 = F32.fin 0 := by
      unfold F32.ofNat
      simpa using rnd_zero
    have e1 : F32.mul (F32.fin 5) (F32.fin 0) = F32.fin 0 := by
      simp only [F32.mul]
      simpa using rnd_zero
    have e2 : F32.div (F32.fin 0) (F32.fin s) = F32.fin 0 := by
      simp only [F32.div]
      rw [if_neg hspos.ne']
      simpa using rnd_zero
    rw [e0, e1, e2]
    exact ⟨_, toInt32_of_nonneg 0 le_rfl (by norm_num)⟩
  · obtain ⟨l, hl, el⟩ := ofNat_rel L hpos hL
    rw [abs_le] at el
    have hL1 : (1 : ℚ) ≤ L := by exact_mod_cast hpos
    have hL2 : (L : ℚ) < 2 ^ 64 := by exact_mod_cast hL
    have hq : (5 : ℚ) * L ≤ 2 ^ 30 * ts.sampleRate := by exact_mod_cast h
    have hlpos : 0 < l := by linarith
    have h5 : |5 * l| = 5 * l := abs_of_pos (by linarith)
    obtain ⟨p, hp, ep⟩ := rnd_rel (5 * l)
      (by rw [h5]; norm_num; linarith)
      (by rw [h5]; norm_num; linarith)
    rw [h5, abs_le] at ep
    have hppos : 0 < p := by linarith
    have hx0 : 0 < p / s := div_pos hppos hspos
    have hx : |p / s| = p / s := abs_of_pos hx0
    obtain ⟨w, hw, ew⟩ := rnd_rel (p / s)
      (by rw [hx, le_div_iff₀ hspos]; norm_num; linarith)
      (by rw [hx, div_lt_iff₀ hspos]; norm_num; linarith)
    rw [hx, abs_le] at ew
    have hxle : p / s ≤ 2 ^ 30 * (1001 / 1000) := by
      rw [div_le_iff₀ hspos]
      norm_num
      norm_num at es el ep
      linarith
    have e1 : F32.mul (F32.fin 5) (F32.fin l) = F32.fin p := by
      simp only [F32.mul]
      exact hp
    have e2 : F32.div (F32.fin p) (F32.fin s) = F32.fin w := by
      simp only [F32.div]
      rw [if_neg hspos.ne']
      exact hw
    rw [hl, e1, e2]
    refine ⟨_, toInt32_of_nonneg w ?_ ?_⟩
    · norm_num at ew
      linarith
    · norm_num at ew hxle ⊢
      linarith

/-- C1: for beats per bar `q ≥ 1` and raw beat count `r = beatFromFrame(iRangeLength)`, values
of their C types whose nearest multiple fits the 16 bit beat count, the beat count `v` that
`updateRangeLength` hands to `setRangeBeats` is `q * ((r + q / 2) / q)`: a multiple of `q`,
within `q / 2` of `r`, equal to `q * round(r / q)` under round half up; `r = 0` gives 0 and for
`q = 4` the counts 5 and 6 give 4 and 8.  The call is reached whenever the preceding spin box
maximum is defined, which holds when `5 * iRangeLength / sampleRate` stays below `2^30`. -/
theorem updateRangeLength_nearest_multiple (ts : TimeScale) (L : ℕ)
    (hq : 1 ≤ ts.beatsPerBar) (hq2 : ts.beatsPerBar < 2 ^ 64)
    (hr : ts.beatFromFrame (u64 L) < 2 ^ 32)
    (hfit : ts.beatsPerBar *
      ((ts.beatFromFrame (u64 L) + ts.beatsPerBar / 2) / ts.beatsPerBar) < 2 ^ 16) :
    ∃ v : ℕ,
      updateRangeLength ts L = (rangeBeatsMax ts L).map (fun mx => (mx, v)) ∧
      (0 < ts.sampleRate → ts.sampleRate < 2 ^ 32 → L < 2 ^ 64 →
        5 * L ≤ 2 ^ 30 * ts.sampleRate → ∃ mx : ℤ, updateRangeLength ts L = some (mx, v)) ∧
      v = ts.beatsPerBar *
        ((ts.beatFromFrame (u64 L) + ts.beatsPerBar / 2) / ts.beatsPerBar) ∧
      ts.beatsPerBar ∣ v ∧
      2 * |(v : ℤ) - ts.beatFromFrame (u64 L)| ≤ ts.beatsPerBar ∧
      (v : ℤ) = ts.beatsPerBar *
        roundHalfUp ((ts.beatFromFrame (u64 L) : ℚ) / ts.beatsPerBar) ∧
      (ts.beatFromFrame (u64 L) = 0 → v = 0) ∧
      (ts.beatsPerBar = 4 → ts.beatFromFrame (u64 L) = 5 → v = 4) ∧
      (ts.beatsPerBar = 4 → ts.beatFromFrame (u64 L) = 6 → v = 8) := by
  have hq0 : u64 ts.beatsPerBar ≠ 0 := by
    rw [show u64 ts.beatsPerBar = ts.beatsPerBar from Nat.mod_eq_of_lt hq2]
    omega
  have heq := updateRangeLength_eq ts L hq0
  rw [quantize_machine _ _ hq hq2 hr hfit] at heq
  refine ⟨_, heq, ?_, rfl, Dvd.intro _ rfl, quantize_near _ _ hq, ?_, ?_, ?_, ?_⟩
  · intro hs1 hs2 hL h5
    obtain ⟨mx, hmx⟩ := rangeBeatsMax_defined ts L hs1 hs2 hL h5
    exact ⟨mx, by rw [heq, hmx]; rfl⟩
  · rw [Nat.cast_mul, quantize_roundHalfUp _ _ hq]
  · intro h0
    rw [h0, Nat.zero_add, Nat.div_eq_of_lt (by omega), Nat.mul_zero]
  · intro h4 h5
    rw [h4, h5]
  · intro h4 h6
    rw [h4, h6]

/-- At 44100 Hz and one second of range the spin box maximum is 5. -/
theorem rangeBeatsMax_44100 (q : ℕ) (g : ℕ → ℕ) :
    rangeBeatsMax ⟨44100, q, g⟩ 44100 = some 5 := by
  have o1 : F32.ofNat 44100 = F32.fin 44100 := by simpa using ofNat_exact 44100 (by norm_num)
  have r1 : rnd 220500 = F32.fin 220500 := by simpa using rnd_natLit 220500 (by norm_num)
  have e1 : F32.mul (F32.fin 5) (F32.fin 44100) = F32.fin 220500 := by
    simp only [F32.mul]; norm_num [r1]
  have e2 : F32.div (F32.fin 220500) (F32.fin 44100) = F32.fin 5 := by
    simpa using div_natLit 220500 44100 5 (by norm_num) (by norm_num) (by norm_num)
  have c1 : F32.toInt32 (F32.fin 5) = some 5 := by simpa using toInt32_natLit 5 (by norm_num)
  have eL : u64 44100 = 44100 := by norm_num [u64]
  simp only [rangeBeatsMax, eL, o1, e1, e2, c1]

/-- C1, witness: at 44100 Hz, one second of range, four beats per bar, the raw beat counts
5, 6 and 0 are quantized to 4, 8 and 0 (the spin box maximum is 5). -/
theorem updateRangeLength_nearest_multiple_witness :
    updateRangeLength ⟨44100, 4, fun _ => 5⟩ 44100 = some (5, 4) ∧
    updateRangeLength ⟨44100, 4, fun _ => 6⟩ 44100 = some (5, 8) ∧
    updateRangeLength ⟨44100, 4, fun _ => 0⟩ 44100 = some (5, 0) := by
  obtain ⟨v5, d5, -, -, -, -, -, -, e5, -⟩ :=
    updateRangeLength_nearest_multiple ⟨44100, 4, fun _ => 5⟩ 44100
      (by decide) (by decide) (by decide) (by decide)
  obtain ⟨v6, d6, -, -, -, -, -, -, -, e6⟩ :=
    updateRangeLength_nearest_multiple ⟨44100, 4, fun _ => 6⟩ 44100
      (by decide) (by decide) (by decide) (by decide)
  obtain ⟨v0, d0, -, -, -, -, -, e0, -, -⟩ :=
    updateRangeLength_nearest_multiple ⟨44100, 4, fun _ => 0⟩ 44100
      (by decide) (by decide) (by decide) (by decide)
  have f5 := e5 rfl rfl
  have f6 := e6 rfl rfl
  have f0 := e0 rfl
  subst f5 f6 f0
  rw [d5, d6, d0, rangeBeatsMax_44100, rangeBeatsMax_44100, rangeBeatsMax_44100]
  exact ⟨rfl, rfl, rfl⟩

/-- With beats per bar 0 the division by `q` is undefined. -/
theorem updateRangeLength_none_of_zero (ts : TimeScale) (L : ℕ)
    (hq : u64 ts.beatsPerBar = 0) : updateRangeLength ts L = none := by
  unfold updateRangeLength
  cases rangeBeatsMax ts L with
  | none => rfl
  | some mx => simp [hq]

/-- C7, counterexample: at 44100 Hz and one second of range the spin box maximum is 5, and
with beats per bar 0 the division `(iRangeBeats + 0) / 0` is performed: the behaviour is
undefined, not a skipped update. -/
theorem updateRangeLength_zero_beatsPerBar_counterexample :
    rangeBeatsMax ⟨44100, 0, fun _ => 4⟩ 44100 = some 5 ∧
    updateRangeLength ⟨44100, 0, fun _ => 4⟩ 44100 = none := by
  exact ⟨rangeBeatsMax_44100 0 _, updateRangeLength_none_of_zero _ _ (by norm_num [u64])⟩

/-- C7 (amended): `updateRangeLength` has no guard on beats per bar: when it is 0 the
division by `q` is performed for every range length, so the behaviour is undefined and no
beat count is handed to `setRangeBeats`. -/
theorem updateRangeLength_zero_beatsPerBar (ts : TimeScale) (L : ℕ)
    (hq : u64 ts.beatsPerBar = 0) : updateRangeLength ts L = none := by
  unfold updateRangeLength
  cases rangeBeatsMax ts L with
  | none => rfl
  | some mx =>
    have h0 : (u64 ts.beatsPerBar = 0) = True := by rw [hq]; simp
    simp only [h0, if_true]

/-- C7, witness: beats per bar 0 at 44100 Hz. -/
theorem updateRangeLength_zero_beatsPerBar_witness :
    u64 0 = 0 ∧ updateRangeLength ⟨44100, 0, fun _ => 4⟩ 44100 = none :=
  ⟨by norm_num [u64],
    updateRangeLength_zero_beatsPerBar ⟨44100, 0, fun _ => 4⟩ 44100 (by norm_num [u64])⟩

/-! ## Tempo and beat length -/

/-- The product `60.0f * float(sampleRate)` is exact while it stays below `2^24`. -/
theorem tempoProduct_exact (sr : ℕ) (hP : 60 * sr < 2 ^ 24) :
    F32.mul (F32.fin 60) (F32.ofNat sr) = F32.fin (60 * (sr : ℚ)) := by
  rw [ofNat_exact sr (by omega)]
  simp only [F32.mul]
  have := rnd_natLit (60 * sr) hP
  push_cast at this
  exact this

theorem toU64_of_nonneg (q : ℚ) (h0 : 0 ≤ q) (h1 : q < 2 ^ 64) :
    F32.toU64 (F32.fin q) = some ⌊q⌋.toNat := by
  have ht : F32.truncQ q = ⌊q⌋ := by simp [F32.truncQ, h0]
  have hf0 : 0 ≤ ⌊q⌋ := Int.floor_nonneg.mpr h0
  have hf1 : ⌊q⌋ < 2 ^ 64 := by
    rw [Int.floor_lt]
    exact_mod_cast h1
  simp only [F32.toU64, ht]
  rw [if_pos ⟨hf0, hf1⟩]

/-- The beat length `tempoChanged` derives from a finite tempo `b > 0`: the single precision
quotient truncated, an integer between the floor and the ceiling of the exact `60 * sr / b`. -/
theorem beatLength_sandwich (sr : ℕ) (b : ℚ) (hb : 0 < b) (hP : 60 * sr < 2 ^ 24)
    (hx : (60 * (sr : ℚ)) / b < 2 ^ 24) :
    ∃ N : ℕ, beatLengthOfTempo sr (F32.fin b) = some N ∧
      ⌊(60 * (sr : ℚ)) / b⌋ ≤ (N : ℤ) ∧ (N : ℤ) ≤ ⌈(60 * (sr : ℚ)) / b⌉ ∧
      N ≤ 2 ^ 24 := by
  have hx0 : 0 ≤ (60 * (sr : ℚ)) / b := div_nonneg (by positivity) hb.le
  have h24 : (2 : ℚ) ^ (24 : ℤ) = 2 ^ 24 := by norm_num
  obtain ⟨v, hv, hlo, hhi⟩ := rnd_sandwich _ hx0 (by rw [h24]; exact hx)
  have hf0 : (0 : ℚ) ≤ ⌊(60 * (sr : ℚ)) / b⌋ := by exact_mod_cast Int.floor_nonneg.mpr hx0
  have hv0 : 0 ≤ v := le_trans hf0 hlo
  have hc : ⌈(60 * (sr : ℚ)) / b⌉ ≤ 2 ^ 24 := by
    rw [Int.ceil_le]
    exact_mod_cast hx.le
  have hc2 : (⌈(60 * (sr : ℚ)) / b⌉ : ℚ) ≤ 2 ^ 24 := by exact_mod_cast hc
  have hfv0 : 0 ≤ ⌊v⌋ := Int.floor_nonneg.mpr hv0
  have hfv1 : ⌊(60 * (sr : ℚ)) / b⌋ ≤ ⌊v⌋ := by
    rw [Int.le_floor]
    exact hlo
  have hfv2 : ⌊v⌋ ≤ ⌈(60 * (sr : ℚ)) / b⌉ := by
    have : (⌊v⌋ : ℚ) ≤ ⌈(60 * (sr : ℚ)) / b⌉ := le_trans (Int.floor_le v) hhi
    exact_mod_cast this
  refine ⟨⌊v⌋.toNat, ?_, ?_, ?_, ?_⟩
  · unfold beatLengthOfTempo
    rw [tempoProduct_exact sr hP]
    simp only [F32.div]
    rw [if_neg hb.ne', hv]
    exact toU64_of_nonneg v hv0 (by norm_num; linarith)
  · rw [Int.toNat_of_nonneg hfv0]
    exact hfv1
  · rw [Int.toNat_of_nonneg hfv0]
    exact hfv2
  · have : ((⌊v⌋.toNat : ℕ) : ℤ) ≤ 2 ^ 24 := by
      rw [Int.toNat_of_nonneg hfv0]
      omega
    exact_mod_cast this

/-- What `tempoChanged` does once the beat length is known. -/
theorem tempoChanged_of_beatLength (f : Form) (ts : TimeScale) (b : ℚ) (L N : ℕ)
    (hd : f.iDirtySetup ≤ 0) (hb : 0 < b)
    (hN : beatLengthOfTempo ts.sampleRate (F32.fin b) = some N) :
    tempoChanged f ts (F32.fin b) L
      = some ({ f with iTempoTap := 0, fTempoTap := F32.fin 0 },
          if 0 < N then some (u16 (u64 L / N)) else none) := by
  have h1 : ¬ f.iDirtySetup > 0 := by omega
  have h2 : (F32.fin b).isPos = true := by simp [F32.isPos, hb]
  simp only [tempoChanged, if_neg h1, h2, hN, if_true]
  by_cases h0 : 0 < N
  · simp [h0]
  · simp [h0]

theorem ofNat_44100 : F32.ofNat 44100 = F32.fin 44100 := by
  simpa using ofNat_exact 44100 (by norm_num)

theorem mul_60_44100 : F32.mul (F32.fin 60) (F32.ofNat 44100) = F32.fin 2646000 := by
  have := tempoProduct_exact 44100 (by norm_num)
  norm_num at this
  exact this

/-- At 44100 Hz the tempo 130 bpm has the beat length 20353. -/
theorem beatLength_44100_130 : beatLengthOfTempo 44100 (F32.fin 130) = some 20353 := by
  have r1 : rnd (264600 / 13) = F32.fin (10421169 / 512) := by
    rw [rnd_eval (264600 / 13) 14 10421169 10421169 (by norm_num) (by norm_num [abs_of_pos])
      (by norm_num [abs_of_pos]) (by norm_num) (by norm_num) (by norm_num)
      (by norm_num [abs_of_pos])]
    norm_num
  have e1 : F32.div (F32.fin 2646000) (F32.fin 130) = F32.fin (10421169 / 512) := by
    simp only [F32.div]; norm_num [r1]
  have c1 : F32.toU64 (F32.fin (10421169 / 512)) = some 20353 := by
    rw [toU64_of_nonneg _ (by norm_num) (by norm_num)]
    have : ⌊(10421169 / 512 : ℚ)⌋ = 20353 := by
      rw [Int.floor_eq_iff]; norm_num
    rw [this]
    rfl
  unfold beatLengthOfTempo
  rw [mul_60_44100, e1, c1]

/-- C6, counterexample: at 44100 Hz and 130 bpm the exact beat length is 20353.846...; the
code derives 20353, the nearest integer is 20354; for a range of 20353 frames it hands
`setRangeBeats` the count 1 where the rounded beat length would give 0. -/
theorem tempoChanged_beatLength_counterexample :
    beatLengthOfTempo 44100 (F32.fin 130) = some 20353 ∧
    round ((60 * 44100 : ℚ) / 130) = 20354 ∧
    tempoChanged ⟨0, F32.fin 0, 0⟩ ⟨44100, 4, id⟩ (F32.fin 130) 20353
      = some (⟨0, F32.fin 0, 0⟩, some 1) ∧
    20353 / 20354 = 0 := by
  have hN := beatLength_44100_130
  refine ⟨hN, ?_, ?_, by decide⟩
  · rw [round_eq, Int.floor_eq_iff]
    norm_num
  · rw [tempoChanged_of_beatLength _ ⟨44100, 4, id⟩ 130 20353 20353 (by decide) (by norm_num) hN]
    norm_num [u16, u64]

/-- A finite result of `rnd` is the rounded value `rndVal`. -/
theorem rnd_fin_val (x v : ℚ) (h : rnd x = F32.fin v) : v = rndVal x := by
  unfold rnd at h
  simp only at h
  by_cases hc : (2 : ℚ) ^ 128 ≤ |(rne (x / 2 ^ ulpExp x) : ℚ) * 2 ^ ulpExp x|
  · rw [if_pos hc] at h
    exact absurd h (by simp)
  · rw [if_neg hc] at h
    injection h with h
    exact h.symm

/-- The single precision quotient `60.0f * float(sr) / b` and its truncation, the beat length
of `tempoChanged`, against the exact quotient. -/
theorem beatLength_trunc (sr : ℕ) (b : ℚ) (hb : 0 < b) (hP : 60 * sr < 2 ^ 24)
    (hx : (60 * (sr : ℚ)) / b < 2 ^ 24) :
    ∃ (v : ℚ) (N : ℕ),
      F32.div (F32.mul (F32.fin 60) (F32.ofNat sr)) (F32.fin b) = F32.fin v ∧
      v = rndVal ((60 * (sr : ℚ)) / b) ∧
      beatLengthOfTempo sr (F32.fin b) = some N ∧
      (N : ℤ) = ⌊v⌋ ∧
      ⌊(60 * (sr : ℚ)) / b⌋ ≤ (N : ℤ) ∧ (N : ℤ) ≤ ⌈(60 * (sr : ℚ)) / b⌉ ∧
      ((N : ℤ) = ⌊(60 * (sr : ℚ)) / b⌋ ∨ v = ⌈(60 * (sr : ℚ)) / b⌉) := by
  have hx0 : 0 ≤ (60 * (sr : ℚ)) / b := div_nonneg (by positivity) hb.le
  have h24 : (2 : ℚ) ^ (24 : ℤ) = 2 ^ 24 := by norm_num
  obtain ⟨v, hv, hlo, hhi⟩ := rnd_sandwich _ hx0 (by rw [h24]; exact hx)
  have hf0 : (0 : ℚ) ≤ ⌊(60 * (sr : ℚ)) / b⌋ := by exact_mod_cast Int.floor_nonneg.mpr hx0
  have hv0 : 0 ≤ v := le_trans hf0 hlo
  have hc2 : (⌈(60 * (sr : ℚ)) / b⌉ : ℚ) ≤ 2 ^ 24 := by
    have hc : ⌈(60 * (sr : ℚ)) / b⌉ ≤ 2 ^ 24 := by
      rw [Int.ceil_le]
      exact_mod_cast hx.le
    exact_mod_cast hc
  have hfv0 : 0 ≤ ⌊v⌋ := Int.floor_nonneg.mpr hv0
  have hfv1 : ⌊(60 * (sr : ℚ)) / b⌋ ≤ ⌊v⌋ := by
    rw [Int.le_floor]
    exact hlo
  have hfv2 : ⌊v⌋ ≤ ⌈(60 * (sr : ℚ)) / b⌉ := by
    have : (⌊v⌋ : ℚ) ≤ ⌈(60 * (sr : ℚ)) / b⌉ := le_trans (Int.floor_le v) hhi
    exact_mod_cast this
  have hq : F32.div (F32.mul (F32.fin 60) (F32.ofNat sr)) (F32.fin b) = F32.fin v := by
    rw [tempoProduct_exact sr hP]
    simp only [F32.div]
    rw [if_neg hb.ne', hv]
  refine ⟨v, ⌊v⌋.toNat, hq, rnd_fin_val _ v hv, ?_, Int.toNat_of_nonneg hfv0, ?_, ?_, ?_⟩
  · unfold beatLengthOfTempo
    rw [hq]
    exact toU64_of_nonneg v hv0 (by norm_num; linarith)
  · rw [Int.toNat_of_nonneg hfv0]
    exact hfv1
  · rw [Int.toNat_of_nonneg hfv0]
    exact hfv2
  · rw [Int.toNat_of_nonneg hfv0]
    by_cases hve : v = ⌈(60 * (sr : ℚ)) / b⌉
    · exact Or.inr hve
    · left
      have hlt : v < ⌈(60 * (sr : ℚ)) / b⌉ := lt_of_le_of_ne hhi hve
      have h1 : ⌊v⌋ < ⌈(60 * (sr : ℚ)) / b⌉ := by
        rw [Int.floor_lt]
        exact hlt
      have h2 : ⌈(60 * (sr : ℚ)) / b⌉ ≤ ⌊(60 * (sr : ℚ)) / b⌋ + 1 := Int.ceil_le_floor_add_one _
      omega

/-- C6 (amended): for a finite tempo `b > 0` and a sample rate with `60 * sampleRate` and
`60 * sampleRate / b` below `2^24`, the beat length `N` that `tempoChanged` derives is the
single precision quotient `v` of `60.0f * float(sampleRate) / b` (the exact quotient rounded
to binary32) truncated toward zero, `N = floor v`, not rounded to nearest.  It lies between
the floor and the ceiling of the exact quotient, and it is the floor of the exact quotient
unless the single precision quotient is itself the ceiling.  When `N > 0` the beat count
handed to `setRangeBeats` is `iRangeLength / N` reduced to 16 bits, when `N = 0` none is set;
this unless the slot is suppressed by `m_iDirtySetup > 0`. -/
theorem tempoChanged_beatLength (f : Form) (ts : TimeScale) (b : ℚ) (L : ℕ)
    (hd : f.iDirtySetup ≤ 0) (hb : 0 < b) (hP : 60 * ts.sampleRate < 2 ^ 24)
    (hx : (60 * (ts.sampleRate : ℚ)) / b < 2 ^ 24) :
    ∃ (v : ℚ) (N : ℕ),
      F32.div (F32.mul (F32.fin 60) (F32.ofNat ts.sampleRate)) (F32.fin b) = F32.fin v ∧
      v = rndVal ((60 * (ts.sampleRate : ℚ)) / b) ∧
      beatLengthOfTempo ts.sampleRate (F32.fin b) = some N ∧
      (N : ℤ) = ⌊v⌋ ∧
      ⌊(60 * (ts.sampleRate : ℚ)) / b⌋ ≤ (N : ℤ) ∧
      (N : ℤ) ≤ ⌈(60 * (ts.sampleRate : ℚ)) / b⌉ ∧
      ((N : ℤ) = ⌊(60 * (ts.sampleRate : ℚ)) / b⌋ ∨ v = ⌈(60 * (ts.sampleRate : ℚ)) / b⌉) ∧
      tempoChanged f ts (F32.fin b) L
        = some ({ f with iTempoTap := 0, fTempoTap := F32.fin 0 },
            if 0 < N then some (u16 (u64 L / N)) else none) := by
  obtain ⟨v, N, hq, hv, hN, hfl, hlo, hhi, hor⟩ := beatLength_trunc ts.sampleRate b hb hP hx
  exact ⟨v, N, hq, hv, hN, hfl, hlo, hhi, hor, tempoChanged_of_beatLength f ts b L N hd hb hN⟩

/-- C6, witness: 44100 Hz, 130 bpm and a range of 40706 frames: the quotient 20353.846... is
truncated to the beat length 20353 and 2 beats are set; the beat length rounded to nearest,
20354, would set 1. -/
theorem tempoChanged_beatLength_witness :
    tempoChanged ⟨2, F32.fin 120, 0⟩ ⟨44100, 4, id⟩ (F32.fin 130) 40706
      = some (⟨0, F32.fin 0, 0⟩, some 2) ∧
    beatLengthOfTempo 44100 (F32.fin 130) = some 20353 ∧
    round ((60 * 44100 : ℚ) / 130) = 20354 ∧ 40706 / 20354 = 1 := by
  obtain ⟨v, N, -, -, hN, -, -, -, -, h⟩ := tempoChanged_beatLength ⟨2, F32.fin 120, 0⟩
    ⟨44100, 4, id⟩ 130 40706 (by decide) (by norm_num) (by norm_num) (by norm_num)
  have hN2 : some N = some 20353 := by
    rw [← hN]
    exact beatLength_44100_130
  have hN3 : N = 20353 := by
    injection hN2
  subst hN3
  refine ⟨?_, beatLength_44100_130, ?_, by decide⟩
  · rw [h]
    norm_num [u16, u64]
  · rw [round_eq, Int.floor_eq_iff]
    norm_num

/-- C5, counterexample: (a) at 44100 Hz the tempo 5292000 bpm gives the beat length 0, from
which `adjust`'s formula yields an infinity, not a tempo; (b) at 48000 Hz the tempo
8388655 / 8388608 bpm (a binary32 number, about 1.0000056) gives the beat length 2879983 and
back the tempo 4194329 / 4194304, and the exact beat lengths of the two tempos differ by more
than one frame. -/
theorem tempo_roundtrip_counterexample :
    (beatLengthOfTempo 44100 (F32.fin 5292000) = some 0 ∧
      tempoOfBeatLength 44100 0 = F32.inf false) ∧
    (beatLengthOfTempo 48000 (F32.fin (8388655 / 8388608)) = some 2879983 ∧
      tempoOfBeatLength 48000 2879983 = F32.fin (4194329 / 4194304) ∧
      (1 : ℚ) < 60 * 48000 / (8388655 / 8388608) - 60 * 48000 / (4194329 / 4194304)) := by
  have m2 : F32.mul (F32.fin 60) (F32.ofNat 48000) = F32.fin 2880000 := by
    have := tempoProduct_exact 48000 (by norm_num)
    norm_num at this
    exact this
  have r1 : rnd (1 / 2) = F32.fin (1 / 2) := by
    rw [rnd_eval (1 / 2) (-1) 8388608 8388608 (by norm_num) (by norm_num [abs_of_pos])
      (by norm_num [abs_of_pos]) (by norm_num) (by norm_num) (by norm_num)
      (by norm_num [abs_of_pos])]
    norm_num
  have r2 : rnd (4831838208000 / 1677731) = F32.fin (11519935 / 4) := by
    rw [rnd_eval (4831838208000 / 1677731) 21 11519935 11519935 (by norm_num)
      (by norm_num [abs_of_pos]) (by norm_num [abs_of_pos]) (by norm_num) (by norm_num)
      (by norm_num) (by norm_num [abs_of_pos])]
    norm_num
  have r3 : rnd (2880000 / 2879983) = F32.fin (4194329 / 4194304) := by
    rw [rnd_eval (2880000 / 2879983) 0 8388657 8388658 (by norm_num)
      (by norm_num [abs_of_pos]) (by norm_num [abs_of_pos]) (by norm_num) (by norm_num)
      (by norm_num) (by norm_num [abs_of_pos])]
    norm_num
  have e1 : F32.div (F32.fin 2646000) (F32.fin 5292000) = F32.fin (1 / 2) := by
    simp only [F32.div]; norm_num [r1]
  have e2 : F32.div (F32.fin 2880000) (F32.fin (8388655 / 8388608))
      = F32.fin (11519935 / 4) := by
    simp only [F32.div]; norm_num [r2]
  have e3 : F32.div (F32.fin 2880000) (F32.fin 2879983) = F32.fin (4194329 / 4194304) := by
    simp only [F32.div]; norm_num [r3]
  have e4 : F32.div (F32.fin 2646000) (F32.fin 0) = F32.inf false := by
    simp only [F32.div]; norm_num
  have o0 : F32.ofNat 0 = F32.fin 0 := by simpa using ofNat_exact 0 (by norm_num)
  have o1 : F32.ofNat 2879983 = F32.fin 2879983 := by
    simpa using ofNat_exact 2879983 (by norm_num)
  have c1 : F32.toU64 (F32.fin (1 / 2)) = some 0 := by
    rw [toU64_of_nonneg _ (by norm_num) (by norm_num)]
    have : ⌊(1 / 2 : ℚ)⌋ = 0 := by
      rw [Int.floor_eq_iff]; norm_num
    rw [this]
    rfl
  have c2 : F32.toU64 (F32.fin (11519935 / 4)) = some 2879983 := by
    rw [toU64_of_nonneg _ (by norm_num) (by norm_num)]
    have : ⌊(11519935 / 4 : ℚ)⌋ = 2879983 := by
      rw [Int.floor_eq_iff]; norm_num
    rw [this]
    rfl
  refine ⟨⟨?_, ?_⟩, ?_, ?_, ?_⟩
  · unfold beatLengthOfTempo
    rw [mul_60_44100, e1, c1]
  · unfold tempoOfBeatLength
    rw [mul_60_44100, o0, e4]
  · unfold beatLengthOfTempo
    rw [m2, e2, c2]
  · unfold tempoOfBeatLength
    rw [m2, o1, e3]
  · norm_num

/-- The tempo `adjust`'s formula gives back from a beat length `N ≥ 1`: finite, positive,
with relative error at most `2^-24`; its exact beat length is within one frame of `N`. -/
theorem tempoOfBeatLength_rel (sr N : ℕ) (hs : 0 < sr) (hP : 60 * sr < 2 ^ 24) (hN1 : 1 ≤ N)
    (hN2 : N ≤ 60 * sr) :
    ∃ t : ℚ, tempoOfBeatLength sr N = F32.fin t ∧ 0 < t ∧
      |t - 60 * (sr : ℚ) / N| ≤ (60 * (sr : ℚ) / N) / 2 ^ 24 ∧
      |60 * (sr : ℚ) / t - N| < 1 := by
  have hPq : (60 : ℚ) * sr ≤ 16777200 := by
    have : 60 * sr ≤ 16777200 := by omega
    exact_mod_cast this
  have hPq1 : (60 : ℚ) ≤ 60 * sr := by
    have : 60 ≤ 60 * sr := by omega
    exact_mod_cast this
  have hNq1 : (1 : ℚ) ≤ N := by exact_mod_cast hN1
  have hNq2 : (N : ℚ) ≤ 60 * sr := by exact_mod_cast hN2
  have hNpos : (0 : ℚ) < N := by linarith
  have hy0 : 0 < 60 * (sr : ℚ) / N := div_pos (by linarith) hNpos
  have hy1 : 1 ≤ 60 * (sr : ℚ) / N := by rw [le_div_iff₀ hNpos]; linarith
  have hy2 : 60 * (sr : ℚ) / N ≤ 16777200 := by rw [div_le_iff₀ hNpos]; nlinarith
  have hya : |60 * (sr : ℚ) / N| = 60 * (sr : ℚ) / N := abs_of_pos hy0
  obtain ⟨t, ht, et⟩ := rnd_rel (60 * (sr : ℚ) / N)
    (by rw [hya]; norm_num; linarith) (by rw [hya]; norm_num; linarith)
  rw [hya, abs_le] at et
  have htpos : 0 < t := by
    have : 60 * (sr : ℚ) / N / 2 ^ 24 ≤ 60 * (sr : ℚ) / N / 2 := by
      apply div_le_div_of_nonneg_left hy0.le (by norm_num) (by norm_num)
    linarith
  have hPN : 60 * (sr : ℚ) = (60 * (sr : ℚ) / N) * N := by field_simp
  generalize 60 * (sr : ℚ) / N = y at hy0 hy1 hy2 et htpos hPN hya ht ⊢
  refine ⟨t, ?_, htpos, ?_, ?_⟩
  · unfold tempoOfBeatLength
    rw [tempoProduct_exact sr hP, ofNat_exact N (by omega)]
    simp only [F32.div]
    rw [if_neg hNpos.ne']
    rw [← ht]
    congr 1
    rw [hPN]
    field_simp
  · rw [abs_le]
    exact et
  · have hn : (N : ℚ) ≤ 16777200 := by linarith
    have k1 : 0 < y * (1 - (N + 1) / 2 ^ 24) := mul_pos hy0 (by norm_num; linarith)
    have k2 : 0 < y * (1 - (N - 1) / 2 ^ 24) := mul_pos hy0 (by norm_num; linarith)
    have k3 : (N + 1) * (y - y / 2 ^ 24) ≤ (N + 1) * t :=
      mul_le_mul_of_nonneg_left (by linarith) (by linarith)
    have k4 : (N - 1) * t ≤ (N - 1) * (y + y / 2 ^ 24) :=
      mul_le_mul_of_nonneg_left (by linarith) (by linarith)
    rw [hPN, abs_lt]
    constructor
    · rw [lt_sub_iff_add_lt, lt_div_iff₀ htpos]
      ring_nf at k2 k4 ⊢
      linarith
    · rw [sub_lt_iff_lt_add, div_lt_iff₀ htpos]
      ring_nf at k1 k3 ⊢
      linarith

/-- C5 (amended): for a sample rate with `0 < 60 * sampleRate < 2^24` and a finite tempo
`1 ≤ b ≤ 60 * sampleRate`, the beat length `N` that `tempoChanged` derives is at least 1 and
within one frame of the exact `60 * sampleRate / b`; `adjust`'s formula turns `N` back into a
finite positive tempo `t`, the single precision rounding of `60 * sampleRate / N`, and the
exact beat lengths `60 * sampleRate / t` and `60 * sampleRate / b` differ by less than two
frames. -/
theorem tempo_roundtrip (sr : ℕ) (b : ℚ) (hs : 0 < sr) (hP : 60 * sr < 2 ^ 24)
    (hb1 : 1 ≤ b) (hb2 : b ≤ 60 * (sr : ℚ)) :
    ∃ (N : ℕ) (t : ℚ), beatLengthOfTempo sr (F32.fin b) = some N ∧ 1 ≤ N ∧
      |(N : ℚ) - 60 * (sr : ℚ) / b| < 1 ∧
      tempoOfBeatLength sr N = F32.fin t ∧ 0 < t ∧
      |t - 60 * (sr : ℚ) / N| ≤ (60 * (sr : ℚ) / N) / 2 ^ 24 ∧
      |60 * (sr : ℚ) / t - 60 * (sr : ℚ) / b| < 2 := by
  have hbpos : 0 < b := by linarith
  have hPq : (60 : ℚ) * sr < 2 ^ 24 := by exact_mod_cast hP
  have hx1 : 1 ≤ 60 * (sr : ℚ) / b := by rw [le_div_iff₀ hbpos]; linarith
  have hx2 : 60 * (sr : ℚ) / b ≤ 60 * (sr : ℚ) := by
    rw [div_le_iff₀ hbpos]
    nlinarith
  obtain ⟨N, hN, hlo, hhi, -⟩ := beatLength_sandwich sr b hbpos hP (by linarith)
  have hfl : 1 ≤ ⌊60 * (sr : ℚ) / b⌋ := by
    rw [Int.le_floor]
    exact_mod_cast hx1
  have hcl : ⌈60 * (sr : ℚ) / b⌉ ≤ ((60 * sr : ℕ) : ℤ) := by
    rw [Int.ceil_le]
    push_cast
    exact hx2
  have hN1 : 1 ≤ N := by omega
  have hN2 : N ≤ 60 * sr := by omega
  have hlo2 : 60 * (sr : ℚ) / b - 1 < N := by
    have h1 := Int.lt_floor_add_one (60 * (sr : ℚ) / b)
    have h2 : (⌊60 * (sr : ℚ) / b⌋ : ℚ) ≤ N := by exact_mod_cast hlo
    linarith
  have hhi2 : (N : ℚ) < 60 * (sr : ℚ) / b + 1 := by
    have h1 := Int.ceil_lt_add_one (60 * (sr : ℚ) / b)
    have h2 : (N : ℚ) ≤ ⌈60 * (sr : ℚ) / b⌉ := by exact_mod_cast hhi
    linarith
  obtain ⟨t, ht, htpos, hrel, hnear⟩ := tempoOfBeatLength_rel sr N hs hP hN1 hN2
  rw [abs_lt] at hnear
  refine ⟨N, t, hN, hN1, ?_, ht, htpos, hrel, ?_⟩
  · rw [abs_lt]
    constructor <;> linarith
  · rw [abs_lt]
    constructor <;> linarith

/-- C5, witness: at 44100 Hz the tempo 130 bpm gives the beat length 20353 and comes back as
4260017 / 32768 (about 130.0054) bpm, whose exact beat length is within two frames. -/
theorem tempo_roundtrip_witness :
    beatLengthOfTempo 44100 (F32.fin 130) = some 20353 ∧
    tempoOfBeatLength 44100 20353 = F32.fin (4260017 / 32768) ∧
    |60 * ((44100 : ℕ) : ℚ) / (4260017 / 32768) - 60 * ((44100 : ℕ) : ℚ) / 130| < 2 := by
  obtain ⟨N, t, h1, -, -, h4, -, -, h7⟩ :=
    tempo_roundtrip 44100 130 (by norm_num) (by norm_num) (by norm_num) (by norm_num)
  have hN : N = 20353 := by
    rw [beatLength_44100_130] at h1
    injection h1 with h
    exact h.symm
  subst hN
  have r1 : rnd (2646000 / 20353) = F32.fin (4260017 / 32768) := by
    rw [rnd_eval (2646000 / 20353) 7 8520034 8520034 (by norm_num) (by norm_num [abs_of_pos])
      (by norm_num [abs_of_pos]) (by norm_num) (by norm_num) (by norm_num)
      (by norm_num [abs_of_pos])]
    norm_num
  have o1 : F32.ofNat 20353 = F32.fin 20353 := by simpa using ofNat_exact 20353 (by norm_num)
  have e1 : F32.div (F32.fin 2646000) (F32.fin 20353) = F32.fin (4260017 / 32768) := by
    simp only [F32.div]; norm_num [r1]
  have ht : tempoOfBeatLength 44100 20353 = F32.fin (4260017 / 32768) := by
    unfold tempoOfBeatLength
    rw [mul_60_44100, o1, e1]
  have htv : t = 4260017 / 32768 := by
    rw [ht] at h4
    injection h4 with h
    exact h.symm
  subst htv
  exact ⟨h1, ht, h7⟩

/-! ## Tap tempo -/

/-- A suppressed `tempoChanged` (`m_iDirtySetup > 0`) returns at once. -/
theorem tempoChanged_suppressed (f : Form) (ts : TimeScale) (t : F32) (L : ℕ)
    (h : 0 < f.iDirtySetup) : tempoChanged f ts t L = some (f, none) := by
  have h1 : f.iDirtySetup > 0 := h
  simp only [tempoChanged, if_pos h1]

/-- A `tempoChanged` that is not suppressed leaves the tap state empty. -/
theorem tempoChanged_form (f f2 : Form) (ts : TimeScale) (t : F32) (L : ℕ) (rb : Option ℕ)
    (hd : f.iDirtySetup ≤ 0) (h : tempoChanged f ts t L = some (f2, rb)) :
    f2 = { f with iTempoTap := 0, fTempoTap := F32.fin 0 } := by
  have h1 : ¬ f.iDirtySetup > 0 := by omega
  simp only [tempoChanged, if_neg h1] at h
  by_cases hp : t.isPos = true
  · simp only [hp, if_true] at h
    cases hb : beatLengthOfTempo ts.sampleRate t with
    | none => rw [hb] at h; exact absurd h (by simp)
    | some N =>
      rw [hb] at h
      simp only at h
      by_cases h0 : N > 0
      · simp only [if_pos h0, Option.some.injEq, Prod.mk.injEq] at h
        exact h.1.symm
      · simp only [if_neg h0, Option.some.injEq, Prod.mk.injEq] at h
        exact h.1.symm
  · simp only [hp, Bool.false_eq_true, if_false, Option.some.injEq, Prod.mk.injEq] at h
    exact h.1.symm

/-- `tempoChanged` is defined when the spin box holds an integer tempo of at least 1 and
`60 * sampleRate` is below `2^24`. -/
theorem tempoChanged_defined (f : Form) (ts : TimeScale) (z : ℤ) (L : ℕ) (hz : 1 ≤ z)
    (hP : 60 * ts.sampleRate < 2 ^ 24) :
    ∃ (f2 : Form) (rb : Option ℕ), tempoChanged f ts (F32.fin z) L = some (f2, rb) := by
  by_cases hd : 0 < f.iDirtySetup
  · exact ⟨_, _, tempoChanged_suppressed f ts _ L hd⟩
  · have hzq : (1 : ℚ) ≤ z := by exact_mod_cast hz
    have hzpos : (0 : ℚ) < z := by linarith
    have hPq : (60 : ℚ) * ts.sampleRate < 2 ^ 24 := by exact_mod_cast hP
    have hx : 60 * (ts.sampleRate : ℚ) / z < 2 ^ 24 := by
      rw [div_lt_iff₀ hzpos]
      have : (0 : ℚ) ≤ 60 * ts.sampleRate := by positivity
      nlinarith
    obtain ⟨N, hN, -, -, -⟩ := beatLength_sandwich ts.sampleRate z hzpos hP hx
    exact ⟨_, _, tempoChanged_of_beatLength f ts z L N (by omega) hzpos hN⟩

/-- A tap inside the window at tap count 0 accumulates and publishes nothing. -/
theorem tempoTap_first (a : F32) (s : Int) (ts : TimeScale) (w : Widgets) (d : Int)
    (hd : 200 < d ∧ d < 2000) :
    tempoTap ⟨0, a, s⟩ ts w d
      = some (⟨1, F32.add a (F32.div (F32.fin 60000) (F32.ofInt d)), s⟩, none, none) := by
  have hw : d > 200 ∧ d < 2000 := hd
  simp only [tempoTap, if_pos hw]
  norm_num

/-- A tap inside the window at tap count 1 accumulates and publishes nothing. -/
theorem tempoTap_second (a : F32) (s : Int) (ts : TimeScale) (w : Widgets) (d : Int)
    (hd : 200 < d ∧ d < 2000) :
    tempoTap ⟨1, a, s⟩ ts w d
      = some (⟨2, F32.add a (F32.div (F32.fin 60000) (F32.ofInt d)), s⟩, none, none) := by
  have hw : d > 200 ∧ d < 2000 := hd
  simp only [tempoTap, if_pos hw]
  norm_num

/-- A tap inside the window whose incremented count exceeds 2 publishes the truncated
average, and the notification, when the spin box gives it, runs `tempoChanged`. -/
theorem tempoTap_publish_eq (f : Form) (ts : TimeScale) (w : Widgets) (d bpm : Int)
    (hd : 200 < d ∧ d < 2000) (ho : f.iTempoTap + 1 < 2 ^ 31) (hn : 2 < f.iTempoTap + 1)
    (hc : F32.toInt32 (F32.div (F32.add f.fTempoTap (F32.div (F32.fin 60000) (F32.ofInt d)))
      (F32.ofInt (f.iTempoTap + 1))) = some bpm) :
    tempoTap f ts w d
      = if w.tempoNotifies = true then
          (tempoChanged { f with iTempoTap := 1, fTempoTap := F32.div (F32.add f.fTempoTap
            (F32.div (F32.fin 60000) (F32.ofInt d))) (F32.ofInt (f.iTempoTap + 1)) }
            ts w.fTempo w.iRangeLength).map (fun r => (r.1, some bpm, r.2))
        else some ({ f with iTempoTap := 1, fTempoTap := F32.div (F32.add f.fTempoTap
            (F32.div (F32.fin 60000) (F32.ofInt d))) (F32.ofInt (f.iTempoTap + 1)) },
          some bpm, none) := by
  have hw : d > 200 ∧ d < 2000 := hd
  have hn2 : f.iTempoTap + 1 > 2 := hn
  simp only [tempoTap, if_pos hw, if_pos ho, if_pos hn2, hc]
  by_cases hb : w.tempoNotifies = true
  · simp only [hb, if_true]
    cases tempoChanged { f with iTempoTap := 1, fTempoTap := F32.div (F32.add f.fTempoTap
        (F32.div (F32.fin 60000) (F32.ofInt d))) (F32.ofInt (f.iTempoTap + 1)) }
        ts w.fTempo w.iRangeLength with
    | none => rfl
    | some r => rfl
  · simp only [hb, if_false]
    rfl

/-- What a publishing tap was, read off the result of `tempoTap`. -/
theorem tempoTap_publish_inv (f f1 : Form) (ts : TimeScale) (w : Widgets) (dt bpm : Int)
    (rb : Option ℕ) (h : tempoTap f ts w dt = some (f1, some bpm, rb)) :
    (200 < dt ∧ dt < 2000) ∧ f.iTempoTap + 1 < 2 ^ 31 ∧ 2 < f.iTempoTap + 1 ∧
    F32.toInt32 (F32.div (F32.add f.fTempoTap (F32.div (F32.fin 60000) (F32.ofInt dt)))
      (F32.ofInt (f.iTempoTap + 1))) = some bpm := by
  unfold tempoTap at h
  by_cases hw : dt > 200 ∧ dt < 2000
  · rw [if_pos hw] at h
    by_cases ho : f.iTempoTap + 1 < 2 ^ 31
    · simp only [if_pos ho] at h
      by_cases hn : f.iTempoTap + 1 > 2
      · simp only [if_pos hn] at h
        cases hc : F32.toInt32 (F32.div (F32.add f.fTempoTap
            (F32.div (F32.fin 60000) (F32.ofInt dt))) (F32.ofInt (f.iTempoTap + 1))) with
        | none => simp [hc] at h
        | some b =>
          simp only [hc] at h
          refine ⟨hw, ho, hn, ?_⟩
          generalize F32.div (F32.add f.fTempoTap (F32.div (F32.fin 60000) (F32.ofInt dt)))
            (F32.ofInt (f.iTempoTap + 1)) = avg at h
          by_cases hb : w.tempoNotifies = true
          · simp only [hb, if_true] at h
            cases hr : tempoChanged { f with iTempoTap := 1, fTempoTap := avg }
                ts w.fTempo w.iRangeLength with
            | none => rw [hr] at h; exact absurd h (by simp)
            | some r =>
              rw [hr] at h
              simp only [Option.some.injEq, Prod.mk.injEq] at h
              rw [h.2.1]
          · simp only [hb, Bool.false_eq_true, if_false, Option.some.injEq, Prod.mk.injEq] at h
            rw [h.2.1]
      · simp [if_neg hn] at h
    · rw [if_neg ho] at h
      exact absurd h (by simp)
  · simp [if_neg hw] at h

/-- A tap inside the window at tap count 2 publishes the truncated average of the three
terms; the notification, when the spin box gives it, runs `tempoChanged`. -/
theorem tempoTap_third (a : F32) (s : Int) (ts : TimeScale) (w : Widgets) (d bpm : Int)
    (hd : 200 < d ∧ d < 2000)
    (hc : F32.toInt32 (F32.div (F32.add a (F32.div (F32.fin 60000) (F32.ofInt d)))
      (F32.ofInt 3)) = some bpm) :
    tempoTap ⟨2, a, s⟩ ts w d
      = if w.tempoNotifies = true then
          (tempoChanged ⟨1, F32.div (F32.add a (F32.div (F32.fin 60000) (F32.ofInt d)))
            (F32.ofInt 3), s⟩ ts w.fTempo w.iRangeLength).map (fun r => (r.1, some bpm, r.2))
        else some (⟨1, F32.div (F32.add a (F32.div (F32.fin 60000) (F32.ofInt d)))
          (F32.ofInt 3), s⟩, some bpm, none) := by
  have e : ((2 : ℤ) + 1) = 3 := by norm_num
  have h := tempoTap_publish_eq ⟨2, a, s⟩ ts w d bpm hd (by norm_num) (by norm_num)
    (by dsimp only; rw [e]; exact hc)
  dsimp only at h
  rw [e] at h
  exact h

/-- From the empty tap state three taps inside the window publish nothing twice and then the
truncated single precision average, which lies within `2^-13` of the exact average. -/
theorem three_taps_aux (s : Int) (ts : TimeScale) (w : Widgets) (d1 d2 d3 : Int)
    (h1 : 200 < d1 ∧ d1 < 2000) (h2 : 200 < d2 ∧ d2 < 2000) (h3 : 200 < d3 ∧ d3 < 2000) :
    ∃ a1 a2 A : ℚ,
      tempoTap ⟨0, F32.fin 0, s⟩ ts w d1 = some (⟨1, F32.fin a1, s⟩, none, none) ∧
      tempoTap ⟨1, F32.fin a1, s⟩ ts w d2 = some (⟨2, F32.fin a2, s⟩, none, none) ∧
      tempoTap ⟨2, F32.fin a2, s⟩ ts w d3
        = (if w.tempoNotifies = true then
            (tempoChanged ⟨1, F32.fin A, s⟩ ts w.fTempo w.iRangeLength).map
              (fun r => (r.1, some ⌊A⌋, r.2))
          else some (⟨1, F32.fin A, s⟩, some ⌊A⌋, none)) ∧
      tapAverage d1 d2 d3 = F32.fin A ∧
      |A - (60000 / (d1 : ℚ) + 60000 / (d2 : ℚ) + 60000 / (d3 : ℚ)) / 3| < 1 / 8192 ∧
      29 ≤ ⌊A⌋ := by
  obtain ⟨v1, hv1, e1, l1, u1⟩ := tapTerm_err d1 h1
  obtain ⟨v2, hv2, e2, l2, u2⟩ := tapTerm_err d2 h2
  obtain ⟨v3, hv3, e3, l3, u3⟩ := tapTerm_err d3 h3
  rw [abs_le] at e1 e2 e3
  obtain ⟨a1, ha1, ea1⟩ := add_err 0 v1 9 (by norm_num) (by norm_num)
    (by rw [abs_lt]; norm_num; constructor <;> linarith)
  norm_num at ea1
  rw [abs_le] at ea1
  obtain ⟨a2, ha2, ea2⟩ := add_err a1 v2 10 (by norm_num) (by norm_num)
    (by rw [abs_lt]; norm_num; constructor <;> linarith)
  norm_num at ea2
  rw [abs_le] at ea2
  obtain ⟨a3, ha3, ea3⟩ := add_err a2 v3 10 (by norm_num) (by norm_num)
    (by rw [abs_lt]; norm_num; constructor <;> linarith)
  norm_num at ea3
  rw [abs_le] at ea3
  have h3f : F32.ofInt 3 = F32.fin 3 := by simpa using ofInt_exact 3 (by norm_num)
  obtain ⟨A, hA, eA⟩ := rnd_err (a3 / 3) 9 (by norm_num) (by norm_num)
    (by rw [abs_lt]; norm_num; constructor <;> linarith)
  norm_num at eA
  rw [abs_le] at eA
  have hdiv : F32.div (F32.fin a3) (F32.ofInt 3) = F32.fin A := by
    rw [h3f]
    simp only [F32.div]
    rw [if_neg (by norm_num), hA]
  have hA0 : 0 ≤ A := by linarith
  have hA1 : A < 2 ^ 31 := by norm_num; linarith
  have hconv := toInt32_of_nonneg A hA0 hA1
  have hfl : 29 ≤ ⌊A⌋ := by
    rw [Int.le_floor]
    push_cast
    linarith
  refine ⟨a1, a2, A, ?_, ?_, ?_, ?_, ?_, hfl⟩
  · rw [tempoTap_first _ _ ts w d1 h1, hv1, ha1]
  · rw [tempoTap_second _ _ ts w d2 h2, hv2, ha2]
  · have h := tempoTap_third (F32.fin a2) s ts w d3 ⌊A⌋ h3 (by rw [hv3, ha3, hdiv, hconv])
    rw [hv3, ha3, hdiv] at h
    exact h
  · simp only [tapAverage, hv1, hv2, hv3, ha1, ha2, ha3, hdiv]
  · rw [abs_lt]
    constructor <;> linarith

/-- At 44100 Hz the tempo 60 bpm has the beat length 44100. -/
theorem beatLength_44100_60 : beatLengthOfTempo 44100 (F32.fin 60) = some 44100 := by
  have e1 : F32.div (F32.fin 2646000) (F32.fin 60) = F32.fin 44100 := by
    simpa using div_natLit 2646000 60 44100 (by norm_num) (by norm_num) (by norm_num)
  have c1 : F32.toU64 (F32.fin 44100) = some 44100 := by
    rw [toU64_of_nonneg _ (by norm_num) (by norm_num)]
    have : ⌊(44100 : ℚ)⌋ = 44100 := by
      rw [Int.floor_eq_iff]; norm_num
    rw [this]
    rfl
  unfold beatLengthOfTempo
  rw [mul_60_44100, e1, c1]

/-- At 44100 Hz the tempo 124 bpm has the beat length 21338. -/
theorem beatLength_44100_124 : beatLengthOfTempo 44100 (F32.fin 124) = some 21338 := by
  have r1 : rnd (661500 / 31) = F32.fin (10925419 / 512) := by
    rw [rnd_eval (661500 / 31) 14 10925419 10925419 (by norm_num) (by norm_num [abs_of_pos])
      (by norm_num [abs_of_pos]) (by norm_num) (by norm_num) (by norm_num)
      (by norm_num [abs_of_pos])]
    norm_num
  have e1 : F32.div (F32.fin 2646000) (F32.fin 124) = F32.fin (10925419 / 512) := by
    simp only [F32.div]; norm_num [r1]
  have c1 : F32.toU64 (F32.fin (10925419 / 512)) = some 21338 := by
    rw [toU64_of_nonneg _ (by norm_num) (by norm_num)]
    have : ⌊(10925419 / 512 : ℚ)⌋ = 21338 := by
      rw [Int.floor_eq_iff]; norm_num
    rw [this]
    rfl
  unfold beatLengthOfTempo
  rw [mul_60_44100, e1, c1]

/-- At 44100 Hz with ten seconds of range, a notified tempo of 60 bpm empties the tap state
and sets 10 beats. -/
theorem tempoChanged_44100_60 (c : Int) (a : F32) :
    tempoChanged ⟨c, a, 0⟩ ⟨44100, 4, id⟩ (F32.fin 60) 441000
      = some (⟨0, F32.fin 0, 0⟩, some 10) := by
  rw [tempoChanged_of_beatLength ⟨c, a, 0⟩ ⟨44100, 4, id⟩ 60 441000 44100 (le_refl (0 : ℤ))
    (by norm_num) beatLength_44100_60]
  norm_num [u16, u64]

/-- At 44100 Hz with ten seconds of range, a notified tempo of 124 bpm empties the tap state
and sets 20 beats. -/
theorem tempoChanged_44100_124 (c : Int) (a : F32) :
    tempoChanged ⟨c, a, 0⟩ ⟨44100, 4, id⟩ (F32.fin 124) 441000
      = some (⟨0, F32.fin 0, 0⟩, some 20) := by
  rw [tempoChanged_of_beatLength ⟨c, a, 0⟩ ⟨44100, 4, id⟩ 124 441000 21338 (le_refl (0 : ℤ))
    (by norm_num) beatLength_44100_124]
  norm_num [u16, u64]

/-- The publishing tap of 1000 ms from tap count 2 and accumulator 120, at 44100 Hz with a
spin box that notifies and then holds 60 bpm: 60 is published and the tap state emptied. -/
theorem tempoTap_publish_60 :
    tempoTap ⟨2, F32.fin 120, 0⟩ ⟨44100, 4, id⟩ ⟨true, F32.fin 60, 441000⟩ 1000
      = some (⟨0, F32.fin 0, 0⟩, some 60, some 10) := by
  have o3 : F32.ofInt 3 = F32.fin 3 := by simpa using ofInt_exact 3 (by norm_num)
  have s1 : F32.add (F32.fin 120) (F32.fin 60) = F32.fin 180 := by
    simpa using add_natLit 120 60 (by norm_num)
  have q1 : F32.div (F32.fin 180) (F32.fin 3) = F32.fin 60 := by
    simpa using div_natLit 180 3 60 (by norm_num) (by norm_num) (by norm_num)
  have c1 : F32.toInt32 (F32.fin 60) = some 60 := by simpa using toInt32_natLit 60 (by norm_num)
  rw [tempoTap_third _ _ _ _ 1000 60 (by decide) (by rw [div_60000_1000, s1, o3, q1, c1]),
    div_60000_1000, s1, o3, q1]
  simp only [if_true, tempoChanged_44100_60]
  rfl

/-- The same tap with a spin box that does not notify: 60 is published, the tap count is 1
and the accumulator keeps the average. -/
theorem tempoTap_publish_60_quiet :
    tempoTap ⟨2, F32.fin 120, 0⟩ ⟨44100, 4, id⟩ ⟨false, F32.fin 60, 441000⟩ 1000
      = some (⟨1, F32.fin 60, 0⟩, some 60, none) := by
  have o3 : F32.ofInt 3 = F32.fin 3 := by simpa using ofInt_exact 3 (by norm_num)
  have s1 : F32.add (F32.fin 120) (F32.fin 60) = F32.fin 180 := by
    simpa using add_natLit 120 60 (by norm_num)
  have q1 : F32.div (F32.fin 180) (F32.fin 3) = F32.fin 60 := by
    simpa using div_natLit 180 3 60 (by norm_num) (by norm_num) (by norm_num)
  have c1 : F32.toInt32 (F32.fin 60) = some 60 := by simpa using toInt32_natLit 60 (by norm_num)
  rw [tempoTap_third _ _ _ _ 1000 60 (by decide) (by rw [div_60000_1000, s1, o3, q1, c1]),
    div_60000_1000, s1, o3, q1]
  simp only [Bool.false_eq_true, if_false]

/-- C2, counterexample: the delays 225, 900, 1440 ms have the exact average
(800/3 + 200/3 + 125/3) / 3 = 125, but the single precision accumulation gives
124.99999237060547 and `tempoTap` publishes 124 (here at 44100 Hz with ten seconds of range
and a spin box that notifies, so the notification then empties the tap state). -/
theorem tempoTap_three_taps_counterexample :
    tempoTap ⟨0, F32.fin 0, 0⟩ ⟨44100, 4, id⟩ ⟨true, F32.fin 124, 441000⟩ 225
      = some (⟨1, F32.fin (8738133 / 32768), 0⟩, none, none) ∧
    tempoTap ⟨1, F32.fin (8738133 / 32768), 0⟩ ⟨44100, 4, id⟩ ⟨true, F32.fin 124, 441000⟩ 900
      = some (⟨2, F32.fin (5461333 / 16384), 0⟩, none, none) ∧
    tempoTap ⟨2, F32.fin (5461333 / 16384), 0⟩ ⟨44100, 4, id⟩ ⟨true, F32.fin 124, 441000⟩ 1440
      = some (⟨0, F32.fin 0, 0⟩, some 124, some 20) ∧
    ⌊((60000 : ℚ) / 225 + 60000 / 900 + 60000 / 1440) / 3⌋ = 125 := by
  have o1 : F32.ofInt 225 = F32.fin 225 := by simpa using ofInt_exact 225 (by norm_num)
  have o2 : F32.ofInt 900 = F32.fin 900 := by simpa using ofInt_exact 900 (by norm_num)
  have o3 : F32.ofInt 1440 = F32.fin 1440 := by simpa using ofInt_exact 1440 (by norm_num)
  have o4 : F32.ofInt 3 = F32.fin 3 := by simpa using ofInt_exact 3 (by norm_num)
  have r1 : rnd (800 / 3) = F32.fin (8738133 / 32768) := by
    rw [rnd_eval (800 / 3) 8 8738133 8738133 (by norm_num) (by norm_num [abs_of_pos])
      (by norm_num [abs_of_pos]) (by norm_num) (by norm_num) (by norm_num)
      (by norm_num [abs_of_pos])]
    norm_num
  have r1b : rnd (8738133 / 32768) = F32.fin (8738133 / 32768) := by
    rw [rnd_eval (8738133 / 32768) 8 8738133 8738133 (by norm_num) (by norm_num [abs_of_pos])
      (by norm_num [abs_of_pos]) (by norm_num) (by norm_num) (by norm_num)
      (by norm_num [abs_of_pos])]
    norm_num
  have r2 : rnd (200 / 3) = F32.fin (8738133 / 131072) := by
    rw [rnd_eval (200 / 3) 6 8738133 8738133 (by norm_num) (by norm_num [abs_of_pos])
      (by norm_num [abs_of_pos]) (by norm_num) (by norm_num) (by norm_num)
      (by norm_num [abs_of_pos])]
    norm_num
  have r3 : rnd (43690665 / 131072) = F32.fin (5461333 / 16384) := by
    rw [rnd_eval (43690665 / 131072) 8 10922666 10922666 (by norm_num)
      (by norm_num [abs_of_pos]) (by norm_num [abs_of_pos]) (by norm_num) (by norm_num)
      (by norm_num) (by norm_num [abs_of_pos])]
    norm_num
  have r4 : rnd (125 / 3) = F32.fin (10922667 / 262144) := by
    rw [rnd_eval (125 / 3) 5 10922666 10922667 (by norm_num) (by norm_num [abs_of_pos])
      (by norm_num [abs_of_pos]) (by norm_num) (by norm_num) (by norm_num)
      (by norm_num [abs_of_pos])]
    norm_num
  have r5 : rnd (98303995 / 262144) = F32.fin (12287999 / 32768) := by
    rw [rnd_eval (98303995 / 262144) 8 12287999 12287999 (by norm_num)
      (by norm_num [abs_of_pos]) (by norm_num [abs_of_pos]) (by norm_num) (by norm_num)
      (by norm_num) (by norm_num [abs_of_pos])]
    norm_num
  have r6 : rnd (12287999 / 98304) = F32.fin (16383999 / 131072) := by
    rw [rnd_eval (12287999 / 98304) 6 16383998 16383999 (by norm_num)
      (by norm_num [abs_of_pos]) (by norm_num [abs_of_pos]) (by norm_num) (by norm_num)
      (by norm_num) (by norm_num [abs_of_pos])]
    norm_num
  have e1 : F32.div (F32.fin 60000) (F32.ofInt 225) = F32.fin (8738133 / 32768) := by
    rw [o1]; simp only [F32.div]; norm_num [r1]
  have e2 : F32.div (F32.fin 60000) (F32.ofInt 900) = F32.fin (8738133 / 131072) := by
    rw [o2]; simp only [F32.div]; norm_num [r2]
  have e3 : F32.div (F32.fin 60000) (F32.ofInt 1440) = F32.fin (10922667 / 262144) := by
    rw [o3]; simp only [F32.div]; norm_num [r4]
  have a1 : F32.add (F32.fin 0) (F32.fin (8738133 / 32768)) = F32.fin (8738133 / 32768) := by
    simp only [F32.add]; norm_num [r1b]
  have a2 : F32.add (F32.fin (8738133 / 32768)) (F32.fin (8738133 / 131072))
      = F32.fin (5461333 / 16384) := by
    simp only [F32.add]; norm_num [r3]
  have a3 : F32.add (F32.fin (5461333 / 16384)) (F32.fin (10922667 / 262144))
      = F32.fin (12287999 / 32768) := by
    simp only [F32.add]; norm_num [r5]
  have e4 : F32.div (F32.fin (12287999 / 32768)) (F32.ofInt 3)
      = F32.fin (16383999 / 131072) := by
    rw [o4]; simp only [F32.div]; norm_num [r6]
  have t4 : F32.toInt32 (F32.fin (16383999 / 131072)) = some 124 := by
    rw [toInt32_of_nonneg _ (by norm_num) (by norm_num)]
    congr 1
    rw [Int.floor_eq_iff]
    norm_num
  refine ⟨?_, ?_, ?_, ?_⟩
  · rw [tempoTap_first _ _ _ _ 225 (by decide), e1, a1]
  · rw [tempoTap_second _ _ _ _ 900 (by decide), e2, a2]
  · rw [tempoTap_third _ _ _ _ 1440 124 (by decide) (by rw [e3, a3, e4, t4]), e3, a3, e4]
    simp only [if_true, tempoChanged_44100_124]
    rfl
  · rw [Int.floor_eq_iff]; norm_num

/-- C2 (amended): from the empty tap state, three taps with delays strictly between 200 and
2000 ms publish nothing on the first two taps and on the third publish the truncation of the
average evaluated in single precision, `tapAverage d1 d2 d3`; that average is within `2^-13`
of the exact `(60000/d1 + 60000/d2 + 60000/d3) / 3`, and for three delays of 1000 ms the
published tempo is 60.  On the third tap the state is count 1 with the average, on which the
notification, when the spin box gives it, runs `tempoChanged`; the tap is defined at least
when the spin box then holds the published tempo and `60 * sampleRate` is below `2^24`. -/
theorem tempoTap_three_taps (s : Int) (ts : TimeScale) (w : Widgets) (d1 d2 d3 : Int)
    (h1 : 200 < d1 ∧ d1 < 2000) (h2 : 200 < d2 ∧ d2 < 2000) (h3 : 200 < d3 ∧ d3 < 2000) :
    ∃ a1 a2 A : ℚ,
      tempoTap ⟨0, F32.fin 0, s⟩ ts w d1 = some (⟨1, F32.fin a1, s⟩, none, none) ∧
      tempoTap ⟨1, F32.fin a1, s⟩ ts w d2 = some (⟨2, F32.fin a2, s⟩, none, none) ∧
      tempoTap ⟨2, F32.fin a2, s⟩ ts w d3
        = (if w.tempoNotifies = true then
            (tempoChanged ⟨1, F32.fin A, s⟩ ts w.fTempo w.iRangeLength).map
              (fun r => (r.1, some ⌊A⌋, r.2))
          else some (⟨1, F32.fin A, s⟩, some ⌊A⌋, none)) ∧
      (w.fTempo = F32.fin ((⌊A⌋ : ℤ) : ℚ) → 60 * ts.sampleRate < 2 ^ 24 →
        ∃ (f3 : Form) (rb : Option ℕ),
          tempoTap ⟨2, F32.fin a2, s⟩ ts w d3 = some (f3, some ⌊A⌋, rb)) ∧
      tapAverage d1 d2 d3 = F32.fin A ∧
      |A - (60000 / (d1 : ℚ) + 60000 / (d2 : ℚ) + 60000 / (d3 : ℚ)) / 3| < 1 / 8192 ∧
      (d1 = 1000 → d2 = 1000 → d3 = 1000 → ⌊A⌋ = 60) := by
  obtain ⟨a1, a2, A, t1, t2, t3, hA, herr, hfl⟩ := three_taps_aux s ts w d1 d2 d3 h1 h2 h3
  refine ⟨a1, a2, A, t1, t2, t3, ?_, hA, herr, ?_⟩
  · intro hw hP
    rw [t3]
    by_cases hb : w.tempoNotifies = true
    · obtain ⟨f2, rb, hr⟩ := tempoChanged_defined ⟨1, F32.fin A, s⟩ ts ⌊A⌋ w.iRangeLength
        (by omega) hP
      rw [if_pos hb, hw, hr]
      exact ⟨f2, rb, rfl⟩
    · rw [if_neg hb]
      exact ⟨_, _, rfl⟩
  · intro e1 e2 e3
    subst e1 e2 e3
    rw [tapAverage_1000] at hA
    have : A = 60 := by
      injection hA with h
      exact h.symm
    rw [this]
    norm_num

/-- C2, witness: at 44100 Hz with a spin box that notifies, three taps of 1000 ms publish
nothing, nothing, then 60. -/
theorem tempoTap_three_taps_witness :
    tempoTap ⟨0, F32.fin 0, 0⟩ ⟨44100, 4, id⟩ ⟨true, F32.fin 60, 441000⟩ 1000
      = some (⟨1, F32.fin 60, 0⟩, none, none) ∧
    tempoTap ⟨1, F32.fin 60, 0⟩ ⟨44100, 4, id⟩ ⟨true, F32.fin 60, 441000⟩ 1000
      = some (⟨2, F32.fin 120, 0⟩, none, none) ∧
    tempoTap ⟨2, F32.fin 120, 0⟩ ⟨44100, 4, id⟩ ⟨true, F32.fin 60, 441000⟩ 1000
      = some (⟨0, F32.fin 0, 0⟩, some 60, some 10) := by
  obtain ⟨a1, a2, A, t1, t2, -, -, hA, -, -⟩ :=
    tempoTap_three_taps 0 ⟨44100, 4, id⟩ ⟨true, F32.fin 60, 441000⟩ 1000 1000 1000
      (by decide) (by decide) (by decide)
  have s0 : F32.add (F32.fin 0) (F32.fin 60) = F32.fin 60 := by
    simpa using add_natLit 0 60 (by norm_num)
  have s1 : F32.add (F32.fin 60) (F32.fin 60) = F32.fin 120 := by
    simpa using add_natLit 60 60 (by norm_num)
  have e1 : tempoTap ⟨0, F32.fin 0, 0⟩ ⟨44100, 4, id⟩ ⟨true, F32.fin 60, 441000⟩ 1000
      = some (⟨1, F32.fin 60, 0⟩, none, none) := by
    rw [tempoTap_first _ _ _ _ 1000 (by decide), div_60000_1000, s0]
  have h1 : a1 = 60 := by
    rw [e1] at t1
    simp only [Option.some.injEq, Prod.mk.injEq, Form.mk.injEq, F32.fin.injEq] at t1
    exact t1.1.2.1.symm
  subst h1
  have e2 : tempoTap ⟨1, F32.fin 60, 0⟩ ⟨44100, 4, id⟩ ⟨true, F32.fin 60, 441000⟩ 1000
      = some (⟨2, F32.fin 120, 0⟩, none, none) := by
    rw [tempoTap_second _ _ _ _ 1000 (by decide), div_60000_1000, s1]
  exact ⟨t1, e2, tempoTap_publish_60⟩

/-- C3: a tap whose delay is not strictly between 200 and 2000 ms resets the tap count and
the accumulator to 0 and publishes no tempo, whatever the tap state was. -/
theorem tempoTap_reset_outside_window (f : Form) (ts : TimeScale) (w : Widgets)
    (iTimeTap : Int) (h : iTimeTap ≤ 200 ∨ 2000 ≤ iTimeTap) :
    tempoTap f ts w iTimeTap
      = some ({ f with iTempoTap := 0, fTempoTap := F32.fin 0 }, none, none) := by
  have hw : ¬ (iTimeTap > 200 ∧ iTimeTap < 2000) := by omega
  simp only [tempoTap, if_neg hw]

/-- C3, witness: delays of 100, 200, 2000 and 2500 ms from a state with two taps seen. -/
theorem tempoTap_reset_outside_window_witness :
    tempoTap ⟨2, F32.fin 120, 0⟩ ⟨44100, 4, id⟩ ⟨true, F32.fin 60, 441000⟩ 100
      = some (⟨0, F32.fin 0, 0⟩, none, none) ∧
    tempoTap ⟨2, F32.fin 120, 0⟩ ⟨44100, 4, id⟩ ⟨true, F32.fin 60, 441000⟩ 200
      = some (⟨0, F32.fin 0, 0⟩, none, none) ∧
    tempoTap ⟨2, F32.fin 120, 0⟩ ⟨44100, 4, id⟩ ⟨true, F32.fin 60, 441000⟩ 2000
      = some (⟨0, F32.fin 0, 0⟩, none, none) ∧
    tempoTap ⟨2, F32.fin 120, 0⟩ ⟨44100, 4, id⟩ ⟨true, F32.fin 60, 441000⟩ 2500
      = some (⟨0, F32.fin 0, 0⟩, none, none) :=
  ⟨tempoTap_reset_outside_window _ _ _ 100 (by decide),
   tempoTap_reset_outside_window _ _ _ 200 (by decide),
   tempoTap_reset_outside_window _ _ _ 2000 (by decide),
   tempoTap_reset_outside_window _ _ _ 2500 (by decide)⟩

/-- A float that converts to `int` is finite and below `2^31 + 1` in absolute value. -/
theorem toInt32_some_inv (x : F32) (b : Int) (h : F32.toInt32 x = some b) :
    ∃ q : ℚ, x = F32.fin q ∧ |q| < 2 ^ 31 + 1 := by
  cases x with
  | fin q =>
    refine ⟨q, rfl, ?_⟩
    simp only [F32.toInt32] at h
    by_cases hc : -(2 : ℤ) ^ 31 ≤ F32.truncQ q ∧ F32.truncQ q < 2 ^ 31
    · obtain ⟨hlo, hhi⟩ := hc
      unfold F32.truncQ at hlo hhi
      by_cases h0 : 0 ≤ q
      · rw [if_pos h0] at hhi
        have h1 : q < ((2 ^ 31 : ℤ) : ℚ) := Int.floor_lt.mp hhi
        push_cast at h1
        rw [abs_of_nonneg h0]
        linarith
      · rw [if_neg h0] at hlo
        have h1 : ((⌈q⌉ : ℤ) : ℚ) < q + 1 := Int.ceil_lt_add_one q
        have h2 : ((-(2 : ℤ) ^ 31 : ℤ) : ℚ) ≤ ((⌈q⌉ : ℤ) : ℚ) := by exact_mod_cast hlo
        push_cast at h2
        rw [abs_of_neg (by linarith)]
        linarith
    · rw [if_neg hc] at h
      exact absurd h (by simp)
  | inf s => exact absurd h (by simp [F32.toInt32])
  | nan => exact absurd h (by simp [F32.toInt32])

/-- A finite float below `2^31` in absolute value converts to `int`. -/
theorem toInt32_of_abs_lt (q : ℚ) (h : |q| < 2 ^ 31) :
    ∃ b : Int, F32.toInt32 (F32.fin q) = some b := by
  rw [abs_lt] at h
  obtain ⟨hlo, hhi⟩ := h
  have hc : -(2 : ℤ) ^ 31 ≤ F32.truncQ q ∧ F32.truncQ q < 2 ^ 31 := by
    unfold F32.truncQ
    by_cases h0 : 0 ≤ q
    · rw [if_pos h0]
      have hf0 : 0 ≤ ⌊q⌋ := Int.floor_nonneg.mpr h0
      have hf1 : ⌊q⌋ < 2 ^ 31 := by
        rw [Int.floor_lt]
        exact_mod_cast hhi
      exact ⟨by omega, hf1⟩
    · rw [if_neg h0]
      have hq : q < 0 := lt_of_not_ge h0
      have hc0 : ⌈q⌉ ≤ 0 := by
        rw [Int.ceil_le]
        exact_mod_cast hq.le
      have hc1 : -(2 : ℤ) ^ 31 ≤ ⌈q⌉ := by
        have h1 : (((-(2 : ℤ) ^ 31 : ℤ)) : ℚ) ≤ ((⌈q⌉ : ℤ) : ℚ) := by
          push_cast
          have := Int.le_ceil q
          linarith
        exact_mod_cast h1
      exact ⟨hc1, by omega⟩
  exact ⟨F32.truncQ q, by simp only [F32.toInt32, if_pos hc]⟩

/-- The average that two taps inside the window build on an accumulator that converts to
`int` converts to `int` as well. -/
theorem tap_followup_defined (q : ℚ) (hq : |q| < 2 ^ 31 + 1) (d4 d5 : Int)
    (h4 : 200 < d4 ∧ d4 < 2000) (h5 : 200 < d5 ∧ d5 < 2000) :
    ∃ bpm2 : Int,
      F32.toInt32 (F32.div (F32.add (F32.add (F32.fin q)
        (F32.div (F32.fin 60000) (F32.ofInt d4))) (F32.div (F32.fin 60000) (F32.ofInt d5)))
        (F32.ofInt 3)) = some bpm2 := by
  obtain ⟨v4, hv4, e4, l4, u4⟩ := tapTerm_err d4 h4
  obtain ⟨v5, hv5, e5, l5, u5⟩ := tapTerm_err d5 h5
  rw [abs_le] at e4 e5
  rw [abs_lt] at hq
  obtain ⟨a4, ha4, ea4⟩ := add_err q v4 32 (by norm_num) (by norm_num)
    (by rw [abs_lt]; norm_num; constructor <;> linarith)
  norm_num at ea4
  rw [abs_le] at ea4
  obtain ⟨a5, ha5, ea5⟩ := add_err a4 v5 32 (by norm_num) (by norm_num)
    (by rw [abs_lt]; norm_num; constructor <;> linarith)
  norm_num at ea5
  rw [abs_le] at ea5
  have h3f : F32.ofInt 3 = F32.fin 3 := by simpa using ofInt_exact 3 (by norm_num)
  obtain ⟨A, hA, eA⟩ := rnd_err (a5 / 3) 30 (by norm_num) (by norm_num)
    (by rw [abs_lt]; norm_num; constructor <;> linarith)
  norm_num at eA
  rw [abs_le] at eA
  have hdiv : F32.div (F32.fin a5) (F32.ofInt 3) = F32.fin A := by
    rw [h3f]
    simp only [F32.div]
    rw [if_neg (by norm_num), hA]
  obtain ⟨b, hb⟩ := toInt32_of_abs_lt A (by rw [abs_lt]; norm_num; constructor <;> linarith)
  exact ⟨b, by rw [hv4, ha4, hv5, ha5, hdiv, hb]⟩

/-- C9, counterexample: at 44100 Hz with a tempo spin box that notifies, the publishing tap
of 1000 ms from tap count 2 and accumulator 120 publishes 60 and leaves the tap count at 0,
not 1: the notification runs `tempoChanged`, which empties the tap state.  Two further taps
of 500 ms then publish nothing. -/
theorem tempoTap_publish_state_counterexample :
    tempoTap ⟨2, F32.fin 120, 0⟩ ⟨44100, 4, id⟩ ⟨true, F32.fin 60, 441000⟩ 1000
      = some (⟨0, F32.fin 0, 0⟩, some 60, some 10) ∧
    (⟨0, F32.fin 0, 0⟩ : Form).iTempoTap ≠ 1 ∧
    tempoTap ⟨0, F32.fin 0, 0⟩ ⟨44100, 4, id⟩ ⟨true, F32.fin 60, 441000⟩ 500
      = some (⟨1, F32.fin 120, 0⟩, none, none) ∧
    tempoTap ⟨1, F32.fin 120, 0⟩ ⟨44100, 4, id⟩ ⟨true, F32.fin 60, 441000⟩ 500
      = some (⟨2, F32.fin 240, 0⟩, none, none) := by
  have s0 : F32.add (F32.fin 0) (F32.fin 120) = F32.fin 120 := by
    simpa using add_natLit 0 120 (by norm_num)
  have s1 : F32.add (F32.fin 120) (F32.fin 120) = F32.fin 240 := by
    simpa using add_natLit 120 120 (by norm_num)
  refine ⟨tempoTap_publish_60, by decide, ?_, ?_⟩
  · rw [tempoTap_first _ _ _ _ 500 (by decide), div_60000_500, s0]
  · rw [tempoTap_second _ _ _ _ 500 (by decide), div_60000_500, s1]

/-- C9 (amended): whenever a tap publishes a tempo, its delay is inside the window, the
incremented tap count exceeds 2, and the published tempo is the truncation of the single
precision average `accumulator / count`; the body of `tempoTap` sets the tap count to 1 and
leaves that average in the accumulator before it calls `setTempo`.  When the spin box notifies
and the slot is not suppressed, `tempoChanged` runs inside the call and leaves tap count 0
and accumulator 0: the average is discarded, and the next tempo is published by the third of
three further taps inside the window, from their delays alone (`tapAverage`).  When the spin
box does not notify, or the slot is suppressed by `m_iDirtySetup > 0`, the tap count stays 1
and the accumulator keeps the average, no beat count is set, and the average is the first of
the three samples of the next average, which two further taps inside the window publish. -/
theorem tempoTap_publish_state (f f1 : Form) (ts : TimeScale) (w : Widgets) (dt bpm : Int)
    (rb : Option ℕ) (h : tempoTap f ts w dt = some (f1, some bpm, rb)) :
    (200 < dt ∧ dt < 2000) ∧ 2 < f.iTempoTap + 1 ∧
    F32.toInt32 (F32.div (F32.add f.fTempoTap (F32.div (F32.fin 60000) (F32.ofInt dt)))
      (F32.ofInt (f.iTempoTap + 1))) = some bpm ∧
    (w.tempoNotifies = true → f.iDirtySetup ≤ 0 →
      f1 = ⟨0, F32.fin 0, f.iDirtySetup⟩ ∧
      ∀ (w2 : Widgets) (d1 d2 d3 : Int),
        200 < d1 ∧ d1 < 2000 → 200 < d2 ∧ d2 < 2000 → 200 < d3 ∧ d3 < 2000 →
        ∃ a1 a2 A : ℚ,
          tempoTap f1 ts w2 d1 = some (⟨1, F32.fin a1, f.iDirtySetup⟩, none, none) ∧
          tempoTap ⟨1, F32.fin a1, f.iDirtySetup⟩ ts w2 d2
            = some (⟨2, F32.fin a2, f.iDirtySetup⟩, none, none) ∧
          tempoTap ⟨2, F32.fin a2, f.iDirtySetup⟩ ts w2 d3
            = (if w2.tempoNotifies = true then
                (tempoChanged ⟨1, F32.fin A, f.iDirtySetup⟩ ts w2.fTempo w2.iRangeLength).map
                  (fun r => (r.1, some ⌊A⌋, r.2))
              else some (⟨1, F32.fin A, f.iDirtySetup⟩, some ⌊A⌋, none)) ∧
          tapAverage d1 d2 d3 = F32.fin A) ∧
    (w.tempoNotifies = false ∨ 0 < f.iDirtySetup →
      f1 = ⟨1, F32.div (F32.add f.fTempoTap (F32.div (F32.fin 60000) (F32.ofInt dt)))
        (F32.ofInt (f.iTempoTap + 1)), f.iDirtySetup⟩ ∧
      rb = none ∧
      ∀ (w2 : Widgets) (d4 d5 : Int), 200 < d4 ∧ d4 < 2000 → 200 < d5 ∧ d5 < 2000 →
        ∃ bpm2 : Int,
          tempoTap f1 ts w2 d4
            = some (⟨2, F32.add f1.fTempoTap (F32.div (F32.fin 60000) (F32.ofInt d4)),
                f.iDirtySetup⟩, none, none) ∧
          F32.toInt32 (F32.div (F32.add (F32.add f1.fTempoTap
            (F32.div (F32.fin 60000) (F32.ofInt d4))) (F32.div (F32.fin 60000) (F32.ofInt d5)))
            (F32.ofInt 3)) = some bpm2 ∧
          tempoTap ⟨2, F32.add f1.fTempoTap (F32.div (F32.fin 60000) (F32.ofInt d4)),
              f.iDirtySetup⟩ ts w2 d5
            = (if w2.tempoNotifies = true then
                (tempoChanged ⟨1, F32.div (F32.add (F32.add f1.fTempoTap
                  (F32.div (F32.fin 60000) (F32.ofInt d4)))
                  (F32.div (F32.fin 60000) (F32.ofInt d5))) (F32.ofInt 3), f.iDirtySetup⟩
                  ts w2.fTempo w2.iRangeLength).map (fun r => (r.1, some bpm2, r.2))
              else some (⟨1, F32.div (F32.add (F32.add f1.fTempoTap
                  (F32.div (F32.fin 60000) (F32.ofInt d4)))
                  (F32.div (F32.fin 60000) (F32.ofInt d5))) (F32.ofInt 3), f.iDirtySetup⟩,
                some bpm2, none))) := by
  obtain ⟨hw, ho, hn, hc⟩ := tempoTap_publish_inv f f1 ts w dt bpm rb h
  have he := tempoTap_publish_eq f ts w dt bpm hw ho hn hc
  rw [he] at h
  generalize F32.div (F32.add f.fTempoTap (F32.div (F32.fin 60000) (F32.ofInt dt)))
    (F32.ofInt (f.iTempoTap + 1)) = avg at h hc ⊢
  refine ⟨hw, hn, hc, ?_, ?_⟩
  · intro hb hd
    rw [if_pos hb] at h
    cases hr : tempoChanged { f with iTempoTap := 1, fTempoTap := avg }
        ts w.fTempo w.iRangeLength with
    | none => rw [hr] at h; exact absurd h (by simp)
    | some r =>
      obtain ⟨r1, r2⟩ := r
      rw [hr] at h
      simp only [Option.map_some', Option.some.injEq, Prod.mk.injEq] at h
      have hf := tempoChanged_form { f with iTempoTap := 1, fTempoTap := avg } r1 ts
        w.fTempo w.iRangeLength r2 hd hr
      have hf1 : f1 = ⟨0, F32.fin 0, f.iDirtySetup⟩ := by
        rw [← h.1, hf]
      refine ⟨hf1, ?_⟩
      intro w2 d1 d2 d3 h1 h2 h3
      obtain ⟨a1, a2, A, t1, t2, t3, hA, -, -⟩ :=
        three_taps_aux f.iDirtySetup ts w2 d1 d2 d3 h1 h2 h3
      rw [hf1]
      exact ⟨a1, a2, A, t1, t2, t3, hA⟩
  · intro hq
    have hv : some (f1, some bpm, rb)
        = some (({ f with iTempoTap := 1, fTempoTap := avg } : Form), some bpm,
            (none : Option ℕ)) := by
      rw [← h]
      by_cases hb : w.tempoNotifies = true
      · rw [if_pos hb]
        rcases hq with hq | hq
        · rw [hq] at hb
          exact absurd hb (by simp)
        · rw [tempoChanged_suppressed { f with iTempoTap := 1, fTempoTap := avg } ts _ _ hq]
          rfl
      · rw [if_neg hb]
    simp only [Option.some.injEq, Prod.mk.injEq] at hv
    obtain ⟨hf1, -, hrb⟩ := hv
    have hf1b : f1 = ⟨1, avg, f.iDirtySetup⟩ := hf1
    refine ⟨hf1b, hrb, ?_⟩
    intro w2 d4 d5 h4 h5
    subst hf1b
    obtain ⟨q, hq1, hq2⟩ := toInt32_some_inv avg bpm hc
    subst hq1
    obtain ⟨bpm2, hb2⟩ := tap_followup_defined q hq2 d4 d5 h4 h5
    exact ⟨bpm2, tempoTap_second _ _ ts w2 d4 h4, hb2, tempoTap_third _ _ ts w2 d5 bpm2 h5 hb2⟩

/-- C9, witness: the publishing tap of 1000 ms from tap count 2 and accumulator 120 at
44100 Hz.  With a spin box that notifies, 60 is published and the tap state emptied; with one
that does not, the state keeps count 1 and the average 60, and two further taps of 500 ms
publish a tempo built on it. -/
theorem tempoTap_publish_state_witness :
    tempoTap ⟨2, F32.fin 120, 0⟩ ⟨44100, 4, id⟩ ⟨true, F32.fin 60, 441000⟩ 1000
      = some (⟨0, F32.fin 0, 0⟩, some 60, some 10) ∧
    F32.toInt32 (F32.div (F32.add (F32.fin 120) (F32.div (F32.fin 60000) (F32.ofInt 1000)))
      (F32.ofInt (2 + 1))) = some 60 ∧
    tempoTap ⟨2, F32.fin 120, 0⟩ ⟨44100, 4, id⟩ ⟨false, F32.fin 60, 441000⟩ 1000
      = some (⟨1, F32.fin 60, 0⟩, some 60, none) ∧
    (∃ bpm2 : Int,
      tempoTap ⟨1, F32.fin 60, 0⟩ ⟨44100, 4, id⟩ ⟨false, F32.fin 60, 441000⟩ 500
        = some (⟨2, F32.add (F32.fin 60) (F32.div (F32.fin 60000) (F32.ofInt 500)), 0⟩,
            none, none) ∧
      F32.toInt32 (F32.div (F32.add (F32.add (F32.fin 60)
        (F32.div (F32.fin 60000) (F32.ofInt 500))) (F32.div (F32.fin 60000) (F32.ofInt 500)))
        (F32.ofInt 3)) = some bpm2 ∧
      tempoTap ⟨2, F32.add (F32.fin 60) (F32.div (F32.fin 60000) (F32.ofInt 500)), 0⟩
          ⟨44100, 4, id⟩ ⟨false, F32.fin 60, 441000⟩ 500
        = some (⟨1, F32.div (F32.add (F32.add (F32.fin 60)
            (F32.div (F32.fin 60000) (F32.ofInt 500)))
            (F32.div (F32.fin 60000) (F32.ofInt 500))) (F32.ofInt 3), 0⟩, some bpm2, none)) := by
  have n1 := tempoTap_publish_state ⟨2, F32.fin 120, 0⟩ ⟨0, F32.fin 0, 0⟩ ⟨44100, 4, id⟩
    ⟨true, F32.fin 60, 441000⟩ 1000 60 (some 10) tempoTap_publish_60
  have n2 := tempoTap_publish_state ⟨2, F32.fin 120, 0⟩ ⟨1, F32.fin 60, 0⟩ ⟨44100, 4, id⟩
    ⟨false, F32.fin 60, 441000⟩ 1000 60 none tempoTap_publish_60_quiet
  obtain ⟨bpm2, t4, c5, t5⟩ := (n2.2.2.2.2 (Or.inl rfl)).2.2 ⟨false, F32.fin 60, 441000⟩
    500 500 (by decide) (by decide)
  refine ⟨tempoTap_publish_60, n1.2.2.1, tempoTap_publish_60_quiet, bpm2, t4, c5, ?_⟩
  rw [t5]
  simp only [Bool.false_eq_true, if_false]

/-! ## Adjust -/

/-- The beat count `adjust` reads from the spin box value `B` of the 16 bit range. -/
theorem adjust_rangeBeats (B : ℕ) (hB : B < 2 ^ 16) : u16 (((B : ℤ) % 2 ^ 16).toNat) = B := by
  have h1 : ((B : ℤ) % 2 ^ 16) = B := Int.emod_eq_of_lt (by positivity) (by exact_mod_cast hB)
  rw [h1, Int.toNat_natCast]
  exact Nat.mod_eq_of_lt hB

theorem adjust_eq (ts : TimeScale) (B L : ℕ) (hB : B < 2 ^ 16) (hL : L < 2 ^ 64) :
    adjust ts B L = if B < 1 then none else some (tempoOfBeatLength ts.sampleRate (L / B)) := by
  have eL : u64 L = L := Nat.mod_eq_of_lt hL
  simp only [adjust, adjust_rangeBeats B hB, eL]

/-- The tempo of a beat length `1 ≤ N < 2^24`: the rounding of `60 * sr / N`. -/
theorem tempoOfBeatLength_fin (sr N : ℕ) (hs : 0 < sr) (hP : 60 * sr < 2 ^ 24) (hN1 : 1 ≤ N)
    (hN2 : N < 2 ^ 24) :
    ∃ t : ℚ, tempoOfBeatLength sr N = F32.fin t ∧ 0 < t ∧
      |t - 60 * (sr : ℚ) / N| ≤ (60 * (sr : ℚ) / N) / 2 ^ 24 := by
  have hPq : (60 : ℚ) * sr ≤ 16777200 := by
    have : 60 * sr ≤ 16777200 := by omega
    exact_mod_cast this
  have hPq1 : (60 : ℚ) ≤ 60 * sr := by
    have : 60 ≤ 60 * sr := by omega
    exact_mod_cast this
  have hNq1 : (1 : ℚ) ≤ N := by exact_mod_cast hN1
  have hNq2 : (N : ℚ) < 16777216 := by
    have : N < 16777216 := by omega
    exact_mod_cast this
  have hNpos : (0 : ℚ) < N := by linarith
  have hy0 : 0 < 60 * (sr : ℚ) / N := div_pos (by linarith) hNpos
  have hy1 : 60 / 2 ^ 24 ≤ 60 * (sr : ℚ) / N := by
    rw [le_div_iff₀ hNpos]
    norm_num
    linarith
  have hy2 : 60 * (sr : ℚ) / N ≤ 16777200 := by rw [div_le_iff₀ hNpos]; nlinarith
  have hya : |60 * (sr : ℚ) / N| = 60 * (sr : ℚ) / N := abs_of_pos hy0
  obtain ⟨t, ht, et⟩ := rnd_rel (60 * (sr : ℚ) / N)
    (by rw [hya]; norm_num at hy1 ⊢; linarith) (by rw [hya]; norm_num; linarith)
  rw [hya] at et
  have htpos : 0 < t := by
    have : 60 * (sr : ℚ) / N / 2 ^ 24 ≤ 60 * (sr : ℚ) / N / 2 := by
      apply div_le_div_of_nonneg_left hy0.le (by norm_num) (by norm_num)
    rw [abs_le] at et
    linarith
  refine ⟨t, ?_, htpos, et⟩
  unfold tempoOfBeatLength
  rw [tempoProduct_exact sr hP, ofNat_exact N hN2]
  simp only [F32.div]
  rw [if_neg hNpos.ne']
  exact ht

/-- The tempo of the beat length 0: an infinity when the sample rate is positive. -/
theorem tempoOfBeatLength_zero (sr : ℕ) (hs : 0 < sr) (hP : 60 * sr < 2 ^ 24) :
    tempoOfBeatLength sr 0 = F32.inf false := by
  have o0 : F32.ofNat 0 = F32.fin 0 := by simpa using ofNat_exact 0 (by norm_num)
  have hne : (60 : ℚ) * sr ≠ 0 := by
    have : (0 : ℚ) < sr := by exact_mod_cast hs
    positivity
  have hlt : ¬ (60 : ℚ) * sr < 0 := by
    have : (0 : ℚ) < sr := by exact_mod_cast hs
    intro h
    linarith
  unfold tempoOfBeatLength
  rw [tempoProduct_exact sr hP, o0]
  simp only [F32.div]
  simp [hne, hlt]

/-- C8, counterexample: at 44100 Hz with range length 1 and beat count 2 the beat length is
0, and `adjust` still writes a tempo: the float quotient by zero, an infinity. -/
theorem adjust_zero_beatLength_counterexample :
    1 / 2 = 0 ∧ adjust ⟨44100, 4, id⟩ 2 1 = some (F32.inf false) := by
  refine ⟨by decide, ?_⟩
  have h := adjust_eq ⟨44100, 4, id⟩ 2 1 (by norm_num) (by norm_num)
  have e : tempoOfBeatLength 44100 0 = F32.inf false :=
    tempoOfBeatLength_zero 44100 (by norm_num) (by norm_num)
  simp only [Nat.cast_ofNat, Nat.cast_one] at h
  rw [h]
  norm_num [e]

/-- C8 (amended): `adjust` is guarded against a beat count below 1 only: for `B < 1` it
returns without writing the tempo; for every `B ≥ 1` it writes the single precision quotient
`60 * sampleRate / float(L div B)` without testing the beat length, and when the beat length
is at least 1 (with `60 * sampleRate` and the beat length below `2^24`) that tempo is the
exact `60 * sampleRate / (L div B)` rounded to single precision. -/
theorem adjust_guard (ts : TimeScale) (B L : ℕ) (hB : B < 2 ^ 16) (hL : L < 2 ^ 64) :
    (B < 1 → adjust ts B L = none) ∧
    (1 ≤ B → adjust ts B L = some (tempoOfBeatLength ts.sampleRate (L / B))) ∧
    (1 ≤ B → 1 ≤ L / B → L / B < 2 ^ 24 → 0 < ts.sampleRate → 60 * ts.sampleRate < 2 ^ 24 →
      ∃ t : ℚ, adjust ts B L = some (F32.fin t) ∧ 0 < t ∧
        |t - 60 * (ts.sampleRate : ℚ) / ((L / B : ℕ) : ℚ)|
          ≤ (60 * (ts.sampleRate : ℚ) / ((L / B : ℕ) : ℚ)) / 2 ^ 24) := by
  have h := adjust_eq ts B L hB hL
  refine ⟨?_, ?_, ?_⟩
  · intro hlt
    rw [h, if_pos hlt]
  · intro hge
    rw [h, if_neg (by omega)]
  · intro hge h1 h2 hs hP
    obtain ⟨t, ht, htpos, herr⟩ := tempoOfBeatLength_fin ts.sampleRate (L / B) hs hP h1 h2
    exact ⟨t, by rw [h, if_neg (by omega), ht], htpos, herr⟩

/-- C8, witness: at 44100 Hz the beat count 0 writes nothing, and 88200 frames in 4 beats
(beat length 22050) write the tempo 120. -/
theorem adjust_guard_witness :
    adjust ⟨44100, 4, id⟩ (0 : ℕ) 88200 = none ∧
    adjust ⟨44100, 4, id⟩ (4 : ℕ) 88200 = some (F32.fin 120) := by
  have h0 := (adjust_guard ⟨44100, 4, id⟩ 0 88200 (by norm_num) (by norm_num)).1 (by norm_num)
  have h4 := (adjust_guard ⟨44100, 4, id⟩ 4 88200 (by norm_num) (by norm_num)).2.1
    (by norm_num)
  have o1 : F32.ofNat 22050 = F32.fin 22050 := by simpa using ofNat_exact 22050 (by norm_num)
  have e1 : F32.div (F32.fin 2646000) (F32.fin 22050) = F32.fin 120 := by
    simpa using div_natLit 2646000 22050 120 (by norm_num) (by norm_num) (by norm_num)
  have ht : tempoOfBeatLength 44100 (88200 / 4) = F32.fin 120 := by
    have : 88200 / 4 = 22050 := by norm_num
    rw [this]
    unfold tempoOfBeatLength
    rw [mul_60_44100, o1, e1]
  refine ⟨h0, ?_⟩
  rw [h4]
  exact congrArg some ht

/-! ## The beat-detection callback: hops -/

theorem fillHop_spec (pp : Nat → Nat → F32) (c iFrames : Nat) :
    ∀ (k j i : Nat) (ibuf : List F32),
      (fillHop pp c iFrames k j i ibuf).1 = j + min k (iFrames - i) ∧
      (fillHop pp c iFrames k j i ibuf).2.1 = i + min k (iFrames - i) ∧
      (fillHop pp c iFrames k j i ibuf).2.2.length = ibuf.length ∧
      ∀ t : Nat, (fillHop pp c iFrames k j i ibuf).2.2[t]? =
        if j ≤ t ∧ t < j + min k (iFrames - i) ∧ t < ibuf.length
        then some (downmix pp c (i + (t - j))) else ibuf[t]? := by
  intro k
  induction k with
  | zero =>
    intro j i ibuf
    refine ⟨by simp [fillHop], by simp [fillHop], by simp [fillHop], ?_⟩
    intro t
    have : ¬ (j ≤ t ∧ t < j + min 0 (iFrames - i) ∧ t < ibuf.length) := by
      simp only [Nat.zero_min, Nat.add_zero]
      omega
    simp only [fillHop, if_neg this]
  | succ k ih =>
    intro j i ibuf
    by_cases hi : i < iFrames
    · simp only [fillHop, if_pos hi]
      obtain ⟨h1, h2, h3, h4⟩ := ih (j + 1) (i + 1) (ibuf.set j (downmix pp c i))
      have hm : min (k + 1) (iFrames - i) = 1 + min k (iFrames - (i + 1)) := by omega
      refine ⟨by rw [h1, hm]; omega, by rw [h2, hm]; omega, by rw [h3]; simp, ?_⟩
      intro t
      rw [h4, List.length_set, List.getElem?_set, hm]
      by_cases htj : j = t
      · subst htj
        by_cases hl : j < ibuf.length
        · have c1 : ¬ (j + 1 ≤ j ∧ j < j + 1 + min k (iFrames - (i + 1)) ∧ j < ibuf.length) := by
            omega
          have c2 : j ≤ j ∧ j < j + (1 + min k (iFrames - (i + 1))) ∧ j < ibuf.length := by
            omega
          simp [if_neg c1, if_pos c2, hl]
        · have c1 : ¬ (j + 1 ≤ j ∧ j < j + 1 + min k (iFrames - (i + 1)) ∧ j < ibuf.length) := by
            omega
          have c2 : ¬ (j ≤ j ∧ j < j + (1 + min k (iFrames - (i + 1))) ∧ j < ibuf.length) := by
            omega
          have hn : ibuf[j]? = none := List.getElem?_eq_none (by omega)
          simp [if_neg c1, if_neg c2, hl, hn]
      · by_cases hc : j + 1 ≤ t ∧ t < j + 1 + min k (iFrames - (i + 1)) ∧ t < ibuf.length
        · have c2 : j ≤ t ∧ t < j + (1 + min k (iFrames - (i + 1))) ∧ t < ibuf.length := by
            omega
          have e : i + 1 + (t - (j + 1)) = i + (t - j) := by omega
          simp [if_pos hc, if_pos c2, e]
        · have c2 : ¬ (j ≤ t ∧ t < j + (1 + min k (iFrames - (i + 1))) ∧ t < ibuf.length) := by
            omega
          simp [if_neg hc, if_neg c2, htj]
    · have e : fillHop pp c iFrames (k + 1) j i ibuf = (j, i, ibuf) := by
        simp only [fillHop, if_neg hi]
      have hm : min (k + 1) (iFrames - i) = 0 := by omega
      rw [e, hm]
      refine ⟨rfl, rfl, rfl, ?_⟩
      intro t
      have : ¬ (j ≤ t ∧ t < j + 0 ∧ t < ibuf.length) := by omega
      rw [if_neg this]

theorem padHop_spec : ∀ (k j : Nat) (ibuf : List F32),
    (padHop k j ibuf).length = ibuf.length ∧
    ∀ t : Nat, (padHop k j ibuf)[t]? =
      if j ≤ t ∧ t < j + k ∧ t < ibuf.length then some (F32.fin 0) else ibuf[t]? := by
  intro k
  induction k with
  | zero =>
    intro j ibuf
    refine ⟨rfl, ?_⟩
    intro t
    have : ¬ (j ≤ t ∧ t < j + 0 ∧ t < ibuf.length) := by omega
    simp only [padHop, if_neg this]
  | succ k ih =>
    intro j ibuf
    obtain ⟨h1, h2⟩ := ih (j + 1) (ibuf.set j (F32.fin 0))
    refine ⟨by simp only [padHop]; rw [h1]; simp, ?_⟩
    intro t
    simp only [padHop]
    rw [h2, List.length_set, List.getElem?_set]
    by_cases htj : j = t
    · subst htj
      by_cases hl : j < ibuf.length
      · have c1 : ¬ (j + 1 ≤ j ∧ j < j + 1 + k ∧ j < ibuf.length) := by omega
        have c2 : j ≤ j ∧ j < j + (k + 1) ∧ j < ibuf.length := by omega
        simp [if_neg c1, if_pos c2, hl]
      · have c1 : ¬ (j + 1 ≤ j ∧ j < j + 1 + k ∧ j < ibuf.length) := by omega
        have c2 : ¬ (j ≤ j ∧ j < j + (k + 1) ∧ j < ibuf.length) := by omega
        have hn : ibuf[j]? = none := List.getElem?_eq_none (by omega)
        simp [if_neg c1, if_neg c2, hl, hn]
    · by_cases hc : j + 1 ≤ t ∧ t < j + 1 + k ∧ t < ibuf.length
      · have c2 : j ≤ t ∧ t < j + (k + 1) ∧ t < ibuf.length := by omega
        simp [if_pos hc, if_pos c2]
      · have c2 : ¬ (j ≤ t ∧ t < j + (k + 1) ∧ t < ibuf.length) := by omega
        simp [if_neg hc, if_neg c2, htj]

/-- The two inner loops together write exactly the hop buffer, whatever `ibuf` held. -/
theorem fill_pad_eq (pp : Nat → Nat → F32) (c iFrames nstep i0 : Nat) (ibuf : List F32)
    (hl : ibuf.length = nstep) :
    padHop (nstep - (fillHop pp c iFrames nstep 0 i0 ibuf).1)
      (fillHop pp c iFrames nstep 0 i0 ibuf).1 (fillHop pp c iFrames nstep 0 i0 ibuf).2.2
      = hopBuffer pp c nstep iFrames i0 ∧
    (fillHop pp c iFrames nstep 0 i0 ibuf).2.1 = i0 + min nstep (iFrames - i0) := by
  obtain ⟨h1, h2, h3, h4⟩ := fillHop_spec pp c iFrames nstep 0 i0 ibuf
  refine ⟨?_, h2⟩
  obtain ⟨p1, p2⟩ := padHop_spec (nstep - (fillHop pp c iFrames nstep 0 i0 ibuf).1)
    (fillHop pp c iFrames nstep 0 i0 ibuf).1 (fillHop pp c iFrames nstep 0 i0 ibuf).2.2
  apply List.ext_getElem?
  intro t
  have hr : (hopBuffer pp c nstep iFrames i0)[t]? =
      if t < nstep then
        some (if i0 + t < iFrames then downmix pp c (i0 + t) else F32.fin 0)
      else none := by
    by_cases ht : t < nstep
    · simp [hopBuffer, List.getElem?_range, ht]
    · rw [if_neg ht]
      exact List.getElem?_eq_none (by simp [hopBuffer]; omega)
  simp only [Nat.zero_add, Nat.sub_zero, Nat.zero_le, true_and] at h1 h4
  rw [p2, h4, h3, h1, hl, hr]
  split_ifs with a1 a2 a3 a4 a5 a6 a7 a8
  all_goals first
    | rfl
    | (exfalso; omega)
    | exact List.getElem?_eq_none (by omega)

theorem hopStep_eq {τ : Type} (T : Tracker τ) (pp : Nat → Nat → F32) (iFrames i : Nat)
    (d : BeatDetectData τ) (hl : d.ibuf.length = d.nstep) :
    hopStep T pp iFrames i d
      = (i + min d.nstep (iFrames - i),
          feed T d (hopBuffer pp d.channels d.nstep iFrames i)) := by
  obtain ⟨h1, h2⟩ := fill_pad_eq pp d.channels iFrames d.nstep i d.ibuf hl
  simp only [hopStep, h1, h2, feed]

theorem hopBuffer_length (pp : Nat → Nat → F32) (c nstep iFrames i0 : Nat) :
    (hopBuffer pp c nstep iFrames i0).length = nstep := by
  simp [hopBuffer]

/-- The hop loop from hop `k` on: with more fuel than hops left it ends, having fed the
remaining hop buffers in order. -/
theorem hopLoop_from {τ : Type} (T : Tracker τ) (pp : Nat → Nat → F32)
    (iFrames c nstep : Nat) (hn : 1 ≤ nstep) :
    ∀ (fuel k : Nat) (d : BeatDetectData τ), d.nstep = nstep → d.channels = c →
      d.ibuf.length = nstep → k ≤ (iFrames + nstep - 1) / nstep →
      (iFrames + nstep - 1) / nstep - k < fuel →
      hopLoop T pp iFrames fuel (min (k * nstep) iFrames) d
        = some (((List.range' k ((iFrames + nstep - 1) / nstep - k)).map
            (fun k => hopBuffer pp c nstep iFrames (k * nstep))).foldl (feed T) d) := by
  intro fuel
  induction fuel with
  | zero =>
    intro k d _ _ _ _ hf
    omega
  | succ fuel ih =>
    intro k d hdn hdc hdl hk hf
    have hiff : k < (iFrames + nstep - 1) / nstep ↔ k * nstep < iFrames := by
      rw [Nat.lt_iff_add_one_le, Nat.le_div_iff_mul_le (by omega), Nat.add_mul]
      omega
    by_cases hlt : k < (iFrames + nstep - 1) / nstep
    · have hkn : k * nstep < iFrames := hiff.mp hlt
      have hmin : min (k * nstep) iFrames = k * nstep := by omega
      have hcond : min (k * nstep) iFrames < iFrames := by omega
      rw [hopLoop, if_pos hcond, hopStep_eq T pp iFrames _ d (by rw [hdl, hdn]), hmin]
      have hnext : k * nstep + min d.nstep (iFrames - k * nstep)
          = min ((k + 1) * nstep) iFrames := by
        rw [hdn, Nat.add_mul]
        omega
      simp only [hnext]
      rw [ih (k + 1) (feed T d (hopBuffer pp d.channels d.nstep iFrames (k * nstep)))
        hdn hdc (by simp [feed, hopBuffer_length, hdn]) (by omega) (by omega)]
      have hr : (iFrames + nstep - 1) / nstep - k
          = ((iFrames + nstep - 1) / nstep - (k + 1)) + 1 := by omega
      rw [hr, List.range'_succ, List.map_cons, List.foldl_cons, hdn, hdc]
    · have hkn : ¬ k * nstep < iFrames := fun h => hlt (hiff.mpr h)
      have hcond : ¬ min (k * nstep) iFrames < iFrames := by omega
      have hz : (iFrames + nstep - 1) / nstep - k = 0 := by omega
      rw [hopLoop, if_neg hcond, hz]
      rfl

/-- The hop loop of one call: with more fuel than input frames it ends, having fed
`hopBuffers` in order. -/
theorem hopLoop_eq {τ : Type} (T : Tracker τ) (pp : Nat → Nat → F32) (iFrames fuel : Nat)
    (d : BeatDetectData τ) (hn : 1 ≤ d.nstep) (hl : d.ibuf.length = d.nstep)
    (hf : iFrames < fuel) :
    hopLoop T pp iFrames fuel 0 d
      = some ((hopBuffers pp d.channels d.nstep iFrames).foldl (feed T) d) := by
  have hle : (iFrames + d.nstep - 1) / d.nstep ≤ iFrames := by
    rw [Nat.div_le_iff_le_mul_add_pred (by omega)]
    have : iFrames ≤ d.nstep * iFrames := Nat.le_mul_of_pos_left _ (by omega)
    omega
  have h := hopLoop_from T pp iFrames d.channels d.nstep hn fuel 0 d rfl rfl hl
    (Nat.zero_le _) (by omega)
  simp only [Nat.zero_mul, Nat.zero_min, Nat.sub_zero] at h
  rw [h, hopBuffers, List.range_eq_range']

theorem foldl_feed_fields {τ : Type} (T : Tracker τ) (bufs : List (List F32)) :
    ∀ d : BeatDetectData τ,
      (bufs.foldl (feed T) d).count = d.count ∧
      (bufs.foldl (feed T) d).channels = d.channels ∧
      (bufs.foldl (feed T) d).nstep = d.nstep ∧
      (bufs.foldl (feed T) d).aubio = bufs.foldl (fun t b => (T.tempoDo t b).1) d.aubio := by
  induction bufs with
  | nil => intro d; exact ⟨rfl, rfl, rfl, rfl⟩
  | cons b bs ih =>
    intro d
    obtain ⟨h1, h2, h3, h4⟩ := ih (feed T d b)
    simp only [List.foldl_cons]
    exact ⟨h1, h2, h3, h4⟩

/-- One call of the callback, with the hop loop resolved. -/
theorem audioClipBeatDetect_eq {τ : Type} (T : Tracker τ) (fuel : Nat)
    (pp : Nat → Nat → F32) (iFrames : Nat) (d : BeatDetectData τ) (progress : Option Int)
    (hn : 1 ≤ d.nstep) (hl : d.ibuf.length = d.nstep) (hf : iFrames < fuel) :
    audioClipBeatDetect T fuel pp iFrames d progress
      = some (if u32 (d.count + 1) > 100
          then ({ (hopBuffers pp d.channels d.nstep iFrames).foldl (feed T) d with count := 0 },
            progress.map (fun v => wrapInt32 (v + iFrames)))
          else ({ (hopBuffers pp d.channels d.nstep iFrames).foldl (feed T) d with
              count := u32 (d.count + 1) }, progress)) := by
  have hc := (foldl_feed_fields T (hopBuffers pp d.channels d.nstep iFrames) d).1
  simp only [audioClipBeatDetect, hopLoop_eq T pp iFrames fuel d hn hl hf, hc]
  split_ifs <;> rfl

theorem hopBuffers_length (pp : Nat → Nat → F32) (c nstep iFrames : Nat) :
    (hopBuffers pp c nstep iFrames).length = (iFrames + nstep - 1) / nstep := by
  simp [hopBuffers]

theorem hopBuffers_getElem? (pp : Nat → Nat → F32) (c nstep iFrames k : Nat)
    (hk : k < (iFrames + nstep - 1) / nstep) :
    (hopBuffers pp c nstep iFrames)[k]? = some (hopBuffer pp c nstep iFrames (k * nstep)) := by
  simp [hopBuffers, List.getElem?_range, hk]

theorem hopBuffer_getElem? (pp : Nat → Nat → F32) (c nstep iFrames i0 j : Nat)
    (hj : j < nstep) :
    (hopBuffer pp c nstep iFrames i0)[j]?
      = some (if i0 + j < iFrames then downmix pp c (i0 + j) else F32.fin 0) := by
  simp [hopBuffer, List.getElem?_range, hj]

theorem foldl_add_exact (x : Nat → ℚ) (s : Nat → F32) (c : Nat)
    (hs : ∀ n, n < c → s n = F32.fin (x n))
    (hsum : ∀ m, m ≤ c → IsF32 (∑ n in Finset.range m, x n)) :
    ∀ m, m ≤ c → (List.range m).foldl (fun fSum n => F32.add fSum (s n)) (F32.fin 0)
      = F32.fin (∑ n in Finset.range m, x n) := by
  intro m
  induction m with
  | zero => intro _; simp
  | succ m ih =>
    intro hm
    rw [List.range_succ, List.foldl_append, ih (by omega), Finset.sum_range_succ]
    simp only [List.foldl_cons, List.foldl_nil]
    rw [hs m (by omega)]
    have := hsum (m + 1) hm
    rw [Finset.sum_range_succ] at this
    exact this

/-- The downmix is the exact arithmetic mean whenever the partial sums and the mean are
binary32 numbers. -/
theorem downmix_exact (pp : Nat → Nat → F32) (c i : Nat) (x : Nat → ℚ) (hc1 : 1 ≤ c)
    (hc2 : c < 2 ^ 24) (hs : ∀ n, n < c → pp n i = F32.fin (x n))
    (hsum : ∀ m, m ≤ c → IsF32 (∑ n in Finset.range m, x n))
    (hmean : IsF32 (exactMean c x)) :
    downmix pp c i = F32.fin (exactMean c x) := by
  have hc0 : (c : ℚ) ≠ 0 := by
    have : (0 : ℚ) < c := by exact_mod_cast hc1
    exact this.ne'
  unfold downmix
  rw [foldl_add_exact x (fun n => pp n i) c hs hsum c le_rfl, ofNat_exact c hc2]
  simp only [F32.div]
  rw [if_neg hc0]
  exact hmean

/-- For up to 128 channels of finite samples in `[-1, 1]` the accumulated sum stays within
`m * 2^-17` of the exact partial sum. -/
theorem foldl_add_near (x : Nat → ℚ) (s : Nat → F32) (c : Nat) (hc : c ≤ 128)
    (hs : ∀ n, n < c → s n = F32.fin (x n)) (hx : ∀ n, n < c → |x n| ≤ 1) :
    ∀ m, m ≤ c → ∃ v : ℚ,
      (List.range m).foldl (fun fSum n => F32.add fSum (s n)) (F32.fin 0) = F32.fin v ∧
      |v - ∑ n in Finset.range m, x n| ≤ (m : ℚ) / 2 ^ 17 ∧
      |∑ n in Finset.range m, x n| ≤ m := by
  intro m
  induction m with
  | zero => intro _; exact ⟨0, by simp, by simp, by simp⟩
  | succ m ih =>
    intro hm
    obtain ⟨v, hv, he, hb⟩ := ih (by omega)
    have hxm := hx m (by omega)
    have hmq : (m : ℚ) ≤ 127 := by
      have : m ≤ 127 := by omega
      exact_mod_cast this
    have hm0 : (0 : ℚ) ≤ m := by positivity
    rw [abs_le] at he hb hxm
    obtain ⟨w, hw, ew⟩ := add_err v (x m) 8 (by norm_num) (by norm_num)
      (by rw [abs_lt]; norm_num; constructor <;> linarith)
    norm_num at ew
    rw [abs_le] at ew
    refine ⟨w, ?_, ?_, ?_⟩
    · rw [List.range_succ, List.foldl_append, hv]
      simp only [List.foldl_cons, List.foldl_nil]
      rw [hs m (by omega), hw]
    · rw [Finset.sum_range_succ, abs_le]
      push_cast
      constructor <;> linarith
    · rw [Finset.sum_range_succ, abs_le]
      push_cast
      constructor <;> linarith

/-- For up to 128 channels of finite samples in `[-1, 1]` the downmix is within `2^-16` of
the exact arithmetic mean. -/
theorem downmix_near (pp : Nat → Nat → F32) (c i : Nat) (x : Nat → ℚ) (hc1 : 1 ≤ c)
    (hc2 : c ≤ 128) (hs : ∀ n, n < c → pp n i = F32.fin (x n))
    (hx : ∀ n, n < c → |x n| ≤ 1) :
    ∃ v : ℚ, downmix pp c i = F32.fin v ∧ |v - exactMean c x| ≤ 1 / 2 ^ 16 := by
  obtain ⟨v, hv, he, hb⟩ := foldl_add_near x (fun n => pp n i) c hc2 hs hx c le_rfl
  have hcq1 : (1 : ℚ) ≤ c := by exact_mod_cast hc1
  have hcpos : (0 : ℚ) < c := by linarith
  rw [abs_le] at he hb
  have q1 : v / c - exactMean c x = (v - ∑ n in Finset.range c, x n) / c := by
    unfold exactMean
    field_simp
  have q2 : |v / c - exactMean c x| ≤ 1 / 2 ^ 17 := by
    rw [q1, abs_le]
    constructor
    · rw [le_div_iff₀ hcpos]
      have : -((c : ℚ) / 2 ^ 17) = -(1 / 2 ^ 17) * c := by ring
      linarith
    · rw [div_le_iff₀ hcpos]
      have : (c : ℚ) / 2 ^ 17 = 1 / 2 ^ 17 * c := by ring
      linarith
  have q3 : |exactMean c x| ≤ 1 := by
    unfold exactMean
    rw [abs_le]
    constructor
    · rw [le_div_iff₀ hcpos]; linarith
    · rw [div_le_iff₀ hcpos]; linarith
  rw [abs_le] at q2 q3
  obtain ⟨w, hw, ew⟩ := rnd_err (v / c) 1 (by norm_num) (by norm_num)
    (by rw [abs_lt]; norm_num; constructor <;> linarith)
  norm_num at ew
  rw [abs_le] at ew
  refine ⟨w, ?_, ?_⟩
  · unfold downmix
    rw [hv, ofNat_exact c (by omega)]
    simp only [F32.div]
    rw [if_neg hcpos.ne', hw]
  · rw [abs_le]
    norm_num at q2 ⊢
    constructor <;> linarith

/-- The downmix of the two channel sample pair `(1.0, -1.0)` is `0.0`. -/
theorem downmix_pair (pp : Nat → Nat → F32) (i : Nat) (h0 : pp 0 i = F32.fin 1)
    (h1 : pp 1 i = F32.fin (-1)) : downmix pp 2 i = F32.fin 0 := by
  have r1 : rnd 1 = F32.fin 1 := by simpa using rnd_natLit 1 (by norm_num)
  have o2 : F32.ofNat 2 = F32.fin 2 := by simpa using ofNat_exact 2 (by norm_num)
  have e1 : F32.add (F32.fin 0) (F32.fin 1) = F32.fin 1 := by
    simp only [F32.add]; norm_num [r1]
  have e2 : F32.add (F32.fin 1) (F32.fin (-1)) = F32.fin 0 := by
    simp only [F32.add]; norm_num [rnd_zero]
  have e3 : F32.div (F32.fin 0) (F32.fin 2) = F32.fin 0 := by
    simp only [F32.div]; norm_num [rnd_zero]
  have hr : List.range 2 = [0, 1] := by decide
  simp only [downmix, hr, List.foldl_cons, List.foldl_nil, h0, h1, e1, e2, o2, e3]

/-- The downmix of the samples `1.0`, `2^-24`, `2^-24`: both additions round back to 1 and the
quotient is 1/3 rounded, 11184811 / 2^25. -/
theorem downmix_triple (i : Nat) : downmix tripleInput 3 i = F32.fin (11184811 / 33554432) := by
  have a1 : F32.add (F32.fin 0) (F32.fin 1) = F32.fin 1 := by
    simpa using add_natLit 0 1 (by norm_num)
  have r2 : rnd (16777217 / 16777216) = F32.fin 1 := by
    rw [rnd_eval (16777217 / 16777216) 0 8388608 8388608 (by norm_num)
      (by norm_num [abs_of_pos]) (by norm_num [abs_of_pos]) (by norm_num) (by norm_num)
      (by norm_num) (by norm_num [abs_of_pos])]
    norm_num
  have a2 : F32.add (F32.fin 1) (F32.fin (1 / 16777216)) = F32.fin 1 := by
    simp only [F32.add]; norm_num [r2]
  have o3 : F32.ofNat 3 = F32.fin 3 := by simpa using ofNat_exact 3 (by norm_num)
  have r3 : rnd (1 / 3) = F32.fin (11184811 / 33554432) := by
    rw [rnd_eval (1 / 3) (-2) 11184810 11184811 (by norm_num) (by norm_num [abs_of_pos])
      (by norm_num [abs_of_pos]) (by norm_num) (by norm_num) (by norm_num)
      (by norm_num [abs_of_pos])]
    norm_num
  have e3 : F32.div (F32.fin 1) (F32.fin 3) = F32.fin (11184811 / 33554432) := by
    simp only [F32.div]; norm_num [r3]
  have hr : List.range 3 = [0, 1, 2] := by decide
  have t0 : tripleInput 0 i = F32.fin 1 := rfl
  have t1 : tripleInput 1 i = F32.fin (1 / 16777216) := rfl
  have t2 : tripleInput 2 i = F32.fin (1 / 16777216) := rfl
  simp only [downmix, hr, List.foldl_cons, List.foldl_nil, t0, t1, t2, a1, a2, o3, e3]

/-- C4, counterexample: three channels holding `1.0`, `2^-24`, `2^-24` in one frame, hop
size 1.  The mono sample the call leaves in `ibuf`, the buffer it fed to the tracker, is
11184811 / 2^25, while the arithmetic mean of the three samples is 2796203 / 2^23, itself a
binary32 number: the two single precision additions round `1 + 2^-24` back to 1, so the
sample fed is 1/3 rounded and not the mean. -/
theorem audioClipBeatDetect_feeds_counterexample :
    (audioClipBeatDetect countingTracker 2 tripleInput 1
        ⟨0, 3, 1, 0, [F32.fin 0], F32.fin 0, []⟩ none).map (fun r => (r.1.ibuf, r.1.aubio))
      = some ([F32.fin (11184811 / 33554432)], 1) ∧
    exactMean 3 (fun n => if n = 0 then 1 else 1 / 16777216) = 2796203 / 8388608 ∧
    IsF32 (2796203 / 8388608) ∧
    F32.fin (11184811 / 33554432) ≠ F32.fin (2796203 / 8388608) := by
  have hb : hopBuffers tripleInput 3 1 1 = [[F32.fin (11184811 / 33554432)]] := by
    have h1 : List.range ((1 + 1 - 1) / 1) = [0] := by decide
    have h2 : List.range 1 = [0] := by decide
    simp only [hopBuffers, hopBuffer, h1, h2, List.map_cons, List.map_nil]
    rw [if_pos (by decide), downmix_triple]
  refine ⟨?_, ?_, ?_, ?_⟩
  · rw [audioClipBeatDetect_eq countingTracker 2 tripleInput 1
      ⟨0, 3, 1, 0, [F32.fin 0], F32.fin 0, []⟩ none (by decide) (by decide) (by decide)]
    dsimp only
    rw [hb, if_neg (by decide)]
    rfl
  · simp only [exactMean, Finset.sum_range_succ, Finset.sum_range_zero]
    norm_num
  · unfold IsF32
    rw [rnd_eval (2796203 / 8388608) (-2) 11184812 11184812 (by norm_num)
      (by norm_num [abs_of_pos]) (by norm_num [abs_of_pos]) (by norm_num) (by norm_num)
      (by norm_num) (by norm_num [abs_of_pos])]
    norm_num
  · intro h
    injection h with h
    norm_num at h

/-- C4 (amended): for a channel count `c ≥ 1`, a hop size `nstep ≥ 1` and a block of
`iFrames` frames, one call of `audioClipBeatDetect` ends (any fuel above `iFrames` suffices)
and feeds the tracker exactly the `ceil(iFrames / nstep)` buffers `hopBuffers`, in order;
buffer `k` has `nstep` samples, and its sample `j` is the single precision downmix of input
frame `k * nstep + j` when that frame exists and 0 otherwise.  The downmix is not the
arithmetic mean but its single precision evaluation (`downmix`: the channels summed in order
from 0, every addition rounded, then divided by `float(c)` and rounded): it is the exact
arithmetic mean whenever the partial sums and the mean are binary32 numbers, it is within
`2^-16` of the exact mean for up to 128 channels of samples in `[-1, 1]`, and for `c = 2` and
the sample pair `(1.0, -1.0)` it is `0.0`. -/
theorem audioClipBeatDetect_feeds {τ : Type} (T : Tracker τ) (fuel : Nat)
    (pp : Nat → Nat → F32) (iFrames : Nat) (d : BeatDetectData τ) (progress : Option Int)
    (hc : 1 ≤ d.channels) (hn : 1 ≤ d.nstep) (hl : d.ibuf.length = d.nstep)
    (hf : iFrames < fuel) :
    ∃ r : BeatDetectData τ × Option Int,
      audioClipBeatDetect T fuel pp iFrames d progress = some r ∧
      r.1.aubio = (hopBuffers pp d.channels d.nstep iFrames).foldl
        (fun t b => (T.tempoDo t b).1) d.aubio ∧
      (hopBuffers pp d.channels d.nstep iFrames).length = (iFrames + d.nstep - 1) / d.nstep ∧
      (∀ k, k < (iFrames + d.nstep - 1) / d.nstep →
        ∃ buf : List F32, (hopBuffers pp d.channels d.nstep iFrames)[k]? = some buf ∧
          buf.length = d.nstep ∧
          ∀ j, j < d.nstep → buf[j]? = some (if k * d.nstep + j < iFrames
            then downmix pp d.channels (k * d.nstep + j) else F32.fin 0)) ∧
      (∀ (i : Nat) (x : Nat → ℚ), d.channels < 2 ^ 24 →
        (∀ n, n < d.channels → pp n i = F32.fin (x n)) →
        (∀ m, m ≤ d.channels → IsF32 (∑ n in Finset.range m, x n)) →
        IsF32 (exactMean d.channels x) →
        downmix pp d.channels i = F32.fin (exactMean d.channels x)) ∧
      (∀ (i : Nat) (x : Nat → ℚ), d.channels ≤ 128 →
        (∀ n, n < d.channels → pp n i = F32.fin (x n)) →
        (∀ n, n < d.channels → |x n| ≤ 1) →
        ∃ v : ℚ, downmix pp d.channels i = F32.fin v ∧
          |v - exactMean d.channels x| ≤ 1 / 2 ^ 16) ∧
      (∀ i, d.channels = 2 → pp 0 i = F32.fin 1 → pp 1 i = F32.fin (-1) →
        downmix pp d.channels i = F32.fin 0) := by
  have hfields := foldl_feed_fields T (hopBuffers pp d.channels d.nstep iFrames) d
  refine ⟨_, audioClipBeatDetect_eq T fuel pp iFrames d progress hn hl hf, ?_,
    hopBuffers_length _ _ _ _, ?_, ?_, ?_, ?_⟩
  · split_ifs <;> exact hfields.2.2.2
  · intro k hk
    refine ⟨_, hopBuffers_getElem? pp d.channels d.nstep iFrames k hk,
      hopBuffer_length _ _ _ _ _, ?_⟩
    intro j hj
    exact hopBuffer_getElem? pp d.channels d.nstep iFrames (k * d.nstep) j hj
  · intro i x hc2 hs hsum hmean
    exact downmix_exact pp d.channels i x hc hc2 hs hsum hmean
  · intro i x hc2 hs hx
    exact downmix_near pp d.channels i x hc hc2 hs hx
  · intro i h2 h0 h1
    rw [h2]
    exact downmix_pair pp i h0 h1

theorem foldl_counting (bufs : List (List F32)) :
    ∀ t : Nat, bufs.foldl (fun t b => (countingTracker.tempoDo t b).1) t = t + bufs.length := by
  induction bufs with
  | nil => intro t; rfl
  | cons b bs ih =>
    intro t
    simp only [List.foldl_cons, List.length_cons]
    rw [ih]
    simp only [countingTracker]
    omega

/-- C4, witness: two channels holding `(1.0, -1.0)` in every frame, three frames, hop size 2:
the call ends, two buffers are fed, and the second is the downmix of frame 2, which is 0.0,
followed by the zero padding. -/
theorem audioClipBeatDetect_feeds_witness :
    (audioClipBeatDetect countingTracker 4 pairInput 3
        ⟨0, 2, 2, 0, [F32.fin 0, F32.fin 0], F32.fin 0, []⟩ none).map (fun r => r.1.aubio)
      = some 2 ∧
    (hopBuffers pairInput 2 2 3)[1]? = some [F32.fin 0, F32.fin 0] := by
  obtain ⟨r, h1, h2, h3, h4, -, -, h6⟩ := audioClipBeatDetect_feeds countingTracker 4 pairInput 3
    ⟨0, 2, 2, 0, [F32.fin 0, F32.fin 0], F32.fin 0, []⟩ none
    (by decide) (by decide) (by decide) (by decide)
  dsimp only at h2 h3 h4 h6
  refine ⟨?_, ?_⟩
  · rw [h1, Option.map_some', h2, foldl_counting, h3]
  · obtain ⟨buf, hb, hlen, hs⟩ := h4 1 (by decide)
    rw [hb]
    have s0 := hs 0 (by decide)
    have s1 := hs 1 (by decide)
    have hd : downmix pairInput 2 (1 * 2 + 0) = F32.fin 0 := h6 2 rfl rfl rfl
    rw [if_pos (by decide), hd] at s0
    rw [if_neg (by decide)] at s1
    congr 1
    apply List.ext_getElem?
    intro t
    match t with
    | 0 => rw [s0]; rfl
    | 1 => rw [s1]; rfl
    | t + 2 =>
      rw [List.getElem?_eq_none (by omega)]
      rfl

/-! ## The beat-detection callback: progress -/

theorem foldl_feed_ibuf {τ : Type} (T : Tracker τ) (n : Nat) (bufs : List (List F32))
    (hb : ∀ b ∈ bufs, b.length = n) :
    ∀ d : BeatDetectData τ, d.ibuf.length = n → (bufs.foldl (feed T) d).ibuf.length = n := by
  induction bufs with
  | nil => intro d hd; exact hd
  | cons b bs ih =>
    intro d _
    simp only [List.foldl_cons]
    exact ih (fun c hc => hb c (List.mem_cons_of_mem _ hc)) (feed T d b)
      (hb b (List.mem_cons_self _ _))

theorem hopBuffers_all_length (pp : Nat → Nat → F32) (c nstep iFrames : Nat) :
    ∀ b ∈ hopBuffers pp c nstep iFrames, b.length = nstep := by
  intro b hb
  simp only [hopBuffers, List.mem_map] at hb
  obtain ⟨k, -, rfl⟩ := hb
  exact hopBuffer_length _ _ _ _ _

/-- One call of the callback: the counter counts the call, and the progress value moves only
when the incremented counter exceeds 100, by the `iFrames` of this call. -/
theorem call_progress {τ : Type} (T : Tracker τ) (fuel : Nat) (pp : Nat → Nat → F32)
    (iFrames : Nat) (d : BeatDetectData τ) (progress : Option Int)
    (hn : 1 ≤ d.nstep) (hl : d.ibuf.length = d.nstep) (hf : iFrames < fuel) :
    ∃ r : BeatDetectData τ × Option Int,
      audioClipBeatDetect T fuel pp iFrames d progress = some r ∧
      r.1.nstep = d.nstep ∧ r.1.ibuf.length = d.nstep ∧
      r.1.aubio = (hopBuffers pp d.channels d.nstep iFrames).foldl
        (fun t b => (T.tempoDo t b).1) d.aubio ∧
      (100 < u32 (d.count + 1) →
        r.1.count = 0 ∧ r.2 = progress.map (fun v => wrapInt32 (v + iFrames))) ∧
      (u32 (d.count + 1) ≤ 100 → r.1.count = u32 (d.count + 1) ∧ r.2 = progress) := by
  have hfields := foldl_feed_fields T (hopBuffers pp d.channels d.nstep iFrames) d
  have hib := foldl_feed_ibuf T d.nstep (hopBuffers pp d.channels d.nstep iFrames)
    (hopBuffers_all_length _ _ _ _) d hl
  refine ⟨_, audioClipBeatDetect_eq T fuel pp iFrames d progress hn hl hf, ?_, ?_, ?_, ?_, ?_⟩
  · split_ifs <;> exact hfields.2.2.1
  · split_ifs <;> exact hib
  · split_ifs <;> exact hfields.2.2.2
  · intro h
    have h2 : u32 (d.count + 1) > 100 := h
    rw [if_pos h2]
    exact ⟨rfl, rfl⟩
  · intro h
    have h2 : ¬ u32 (d.count + 1) > 100 := by omega
    rw [if_neg h2]
    exact ⟨rfl, rfl⟩

/-- Calls that keep the counter at or below 100 leave the progress value unchanged. -/
theorem detectRun_quiet {τ : Type} (T : Tracker τ) (fuel : Nat) (p : Option Int) :
    ∀ (blocks : List ((Nat → Nat → F32) × Nat)) (d : BeatDetectData τ),
      1 ≤ d.nstep → d.ibuf.length = d.nstep → (∀ b ∈ blocks, b.2 < fuel) →
      d.count + blocks.length ≤ 100 →
      ∃ d1 : BeatDetectData τ, detectRun T fuel blocks d p = some (d1, p) ∧
        d1.count = d.count + blocks.length ∧ d1.nstep = d.nstep ∧
        d1.ibuf.length = d.nstep := by
  intro blocks
  induction blocks with
  | nil =>
    intro d _ hl _ _
    exact ⟨d, rfl, rfl, rfl, hl⟩
  | cons b bs ih =>
    intro d hn hl hb hc
    simp only [List.length_cons] at hc
    obtain ⟨r, hr, hrn, hri, -, -, hle⟩ :=
      call_progress T fuel b.1 b.2 d p hn hl (hb b (List.mem_cons_self _ _))
    have hu : u32 (d.count + 1) = d.count + 1 := Nat.mod_eq_of_lt (by omega)
    obtain ⟨hcount, hprog⟩ := hle (by omega)
    obtain ⟨d1, h1, h2, h3, h4⟩ := ih r.1 (by omega) (by omega)
      (fun c hcm => hb c (List.mem_cons_of_mem _ hcm)) (by omega)
    refine ⟨d1, ?_, ?_, by omega, by omega⟩
    · simp only [detectRun, hr]
      rw [hprog, h1]
    · simp only [List.length_cons]
      omega

/-- After 100 quiet calls from counter 0, call 101 advances the progress value by its own
`iFrames` and resets the counter. -/
theorem detectRun_101 {τ : Type} (T : Tracker τ) (fuel : Nat) (v : Int)
    (blocks : List ((Nat → Nat → F32) × Nat)) (pp : Nat → Nat → F32) (iFrames : Nat)
    (d : BeatDetectData τ) (hn : 1 ≤ d.nstep) (hl : d.ibuf.length = d.nstep)
    (hb : ∀ b ∈ blocks, b.2 < fuel) (hf : iFrames < fuel) (hc : d.count = 0)
    (hlen : blocks.length = 100) :
    ∃ d1 d2 : BeatDetectData τ,
      detectRun T fuel blocks d (some v) = some (d1, some v) ∧ d1.count = 100 ∧
      detectRun T fuel (blocks ++ [(pp, iFrames)]) d (some v)
        = some (d2, some (wrapInt32 (v + iFrames))) ∧ d2.count = 0 := by
  have happ : ∀ (l : List ((Nat → Nat → F32) × Nat)) (d0 d1 : BeatDetectData τ)
      (p0 p1 : Option Int) (l2 : List ((Nat → Nat → F32) × Nat)),
      detectRun T fuel l d0 p0 = some (d1, p1) →
      detectRun T fuel (l ++ l2) d0 p0 = detectRun T fuel l2 d1 p1 := by
    intro l
    induction l with
    | nil =>
      intro d0 d1 p0 p1 l2 h
      simp only [detectRun, Option.some.injEq, Prod.mk.injEq] at h
      obtain ⟨h1, h2⟩ := h
      subst h1 h2
      rfl
    | cons b bs ih =>
      intro d0 d1 p0 p1 l2 h
      simp only [List.cons_append, detectRun] at h ⊢
      cases hcall : audioClipBeatDetect T fuel b.1 b.2 d0 p0 with
      | none => rw [hcall] at h; exact absurd h (by simp)
      | some r =>
        rw [hcall] at h
        simp only at h ⊢
        exact ih r.1 d1 r.2 p1 l2 h
  obtain ⟨d1, h1, h2, h3, h4⟩ := detectRun_quiet T fuel (some v) blocks d hn hl hb (by omega)
  obtain ⟨r, hr, -, -, -, hgt, -⟩ :=
    call_progress T fuel pp iFrames d1 (some v) (by omega) (by omega) hf
  have hu : u32 (d1.count + 1) = 101 := by
    rw [h2, hc, hlen]
    exact Nat.mod_eq_of_lt (by norm_num)
  obtain ⟨hcount, hprog⟩ := hgt (by omega)
  refine ⟨d1, r.1, h1, by omega, ?_, hcount⟩
  rw [happ blocks d d1 (some v) (some v) [(pp, iFrames)] h1]
  simp only [detectRun, hr]
  rw [hprog]
  rfl

/-- C10, counterexample: (a) one call with 200 frames at hop size 1 feeds the tracker 200
hops, yet the progress value stays 0 and the counter goes to 1; (b) 101 calls of one frame
each, 101 hops and 101 frames, advance the progress value once, by 1 and not by 101, and
the first 100 of them (100 hops) do not advance it at all. -/
theorem audioClipBeatDetect_progress_counterexample :
    (audioClipBeatDetect countingTracker 201 silence 200 monoData (some 0)).map
        (fun r => (r.1.aubio, r.1.count, r.2)) = some (200, 1, some 0) ∧
    (detectRun countingTracker 2 (List.replicate 100 (silence, 1)) monoData (some 0)).map
        (fun r => (r.1.count, r.2)) = some (100, some 0) ∧
    (detectRun countingTracker 2 (List.replicate 100 (silence, 1) ++ [(silence, 1)])
        monoData (some 0)).map (fun r => (r.1.count, r.2)) = some (0, some 1) := by
  refine ⟨?_, ?_⟩
  · obtain ⟨r, hr, -, -, ha, -, hle⟩ := call_progress countingTracker 201 silence 200 monoData
      (some 0) (by decide) (by decide) (by decide)
    have hu : u32 (monoData.count + 1) = 1 := by norm_num [u32, monoData]
    obtain ⟨hc, hp⟩ := hle (by rw [hu]; decide)
    rw [hr]
    simp only [Option.map_some', Option.some.injEq, Prod.mk.injEq]
    refine ⟨?_, ?_, hp⟩
    · rw [ha, foldl_counting, hopBuffers_length]
      rfl
    · rw [hc, hu]
  · obtain ⟨d1, d2, h1, hc1, h2, hc2⟩ := detectRun_101 countingTracker 2 0
      (List.replicate 100 (silence, 1)) silence 1 monoData (by decide) (by decide)
      (by
        intro b hb
        rw [List.eq_of_mem_replicate hb]
        decide)
      (by decide) rfl (by simp)
    have hw : wrapInt32 (0 + ((1 : ℕ) : ℤ)) = 1 := by norm_num [wrapInt32]
    rw [h1, h2, hw]
    simp only [Option.map_some', hc1, hc2, and_self]

/-- C10 (amended): the counter `count` counts calls of `audioClipBeatDetect`, not hops: one
call increments it once, whatever the number of hops it fed the tracker.  A call whose
incremented counter exceeds 100 advances the progress value by the `iFrames` of that call
alone and resets the counter to 0; every other call leaves the progress value unchanged.
So from counter 0 the first 100 calls do not move the progress value and call 101 adds its
own frame count. -/
theorem audioClipBeatDetect_progress {τ : Type} (T : Tracker τ) (fuel : Nat)
    (pp : Nat → Nat → F32) (iFrames : Nat) (d : BeatDetectData τ) (progress : Option Int)
    (hn : 1 ≤ d.nstep) (hl : d.ibuf.length = d.nstep) (hf : iFrames < fuel) :
    (∃ r : BeatDetectData τ × Option Int,
      audioClipBeatDetect T fuel pp iFrames d progress = some r ∧
      r.1.aubio = (hopBuffers pp d.channels d.nstep iFrames).foldl
        (fun t b => (T.tempoDo t b).1) d.aubio ∧
      (100 < u32 (d.count + 1) →
        r.1.count = 0 ∧ r.2 = progress.map (fun v => wrapInt32 (v + iFrames))) ∧
      (u32 (d.count + 1) ≤ 100 → r.1.count = u32 (d.count + 1) ∧ r.2 = progress)) ∧
    (∀ (blocks : List ((Nat → Nat → F32) × Nat)) (v : Int),
      (∀ b ∈ blocks, b.2 < fuel) → d.count = 0 → blocks.length = 100 →
      ∃ d1 d2 : BeatDetectData τ,
        detectRun T fuel blocks d (some v) = some (d1, some v) ∧ d1.count = 100 ∧
        detectRun T fuel (blocks ++ [(pp, iFrames)]) d (some v)
          = some (d2, some (wrapInt32 (v + iFrames))) ∧ d2.count = 0) := by
  constructor
  · obtain ⟨r, hr, -, -, ha, hgt, hle⟩ := call_progress T fuel pp iFrames d progress hn hl hf
    exact ⟨r, hr, ha, hgt, hle⟩
  · intro blocks v hb hc hlen
    exact detectRun_101 T fuel v blocks pp iFrames d hn hl hb hf hc hlen

/-- C10, witness: a call of 1024 frames at hop size 256 (four hops) with the counter at 100
adds 1024 to the progress value 5000 and resets the counter; with the counter at 7 it leaves
the progress value alone. -/
theorem audioClipBeatDetect_progress_witness :
    (audioClipBeatDetect countingTracker 1025 silence 1024
        ⟨100, 1, 256, 0, List.replicate 256 (F32.fin 0), F32.fin 0, []⟩ (some 5000)).map
        (fun r => (r.1.aubio, r.1.count, r.2)) = some (4, 0, some 6024) ∧
    (audioClipBeatDetect countingTracker 1025 silence 1024
        ⟨7, 1, 256, 0, List.replicate 256 (F32.fin 0), F32.fin 0, []⟩ (some 5000)).map
        (fun r => (r.1.aubio, r.1.count, r.2)) = some (4, 8, some 5000) := by
  obtain ⟨⟨r, hr, ha, hgt, -⟩, -⟩ := audioClipBeatDetect_progress countingTracker 1025 silence
    1024 ⟨100, 1, 256, 0, List.replicate 256 (F32.fin 0), F32.fin 0, []⟩ (some 5000)
    (by decide) (List.length_replicate 256 _) (by decide)
  obtain ⟨⟨s, hs, hb, -, hle⟩, -⟩ := audioClipBeatDetect_progress countingTracker 1025 silence
    1024 ⟨7, 1, 256, 0, List.replicate 256 (F32.fin 0), F32.fin 0, []⟩ (some 5000)
    (by decide) (List.length_replicate 256 _) (by decide)
  dsimp only at ha hgt hb hle
  have hu1 : u32 (100 + 1) = 101 := by norm_num [u32]
  have hu2 : u32 (7 + 1) = 8 := by norm_num [u32]
  have hw : wrapInt32 (5000 + ((1024 : ℕ) : ℤ)) = 6024 := by norm_num [wrapInt32]
  obtain ⟨c1, p1⟩ := hgt (by rw [hu1]; decide)
  obtain ⟨c2, p2⟩ := hle (by rw [hu2]; decide)
  rw [hr, hs]
  simp only [Option.map_some', Option.some.injEq, Prod.mk.injEq]
  refine ⟨⟨?_, c1, ?_⟩, ?_, ?_, p2⟩
  · rw [ha, foldl_counting, hopBuffers_length]
  · rw [p1]
    simp only [Option.map_some', hw]
  · rw [hb, foldl_counting, hopBuffers_length]
  · rw [c2, hu2]

end Qtractor
